import Mathlib

/-!
# Verification of the `roll-to-quest` Markdown splitter

A shallow embedding of `src/services/splitter.py` (class `MarkdownSplitter`)
and of the `Section` data model from `src/text_splitting/models.py`.
Python strings are modelled as `List Char`; the regular-expression behaviour
of the CPython `re` engine on the two patterns used by the source
(the DOTALL fence pattern and the MULTILINE header pattern) is translated
operationally, including leftmost scanning, greedy/non-greedy backtracking
and non-overlapping `finditer` semantics.  Python `dict`s (which keep
insertion order and overwrite values in place) are modelled as ordered
association structures.
-/

namespace RollToQuest

/-- Python strings are lists of characters. -/
abbrev Str := List Char

/-- The characters Python treats as whitespace for `str` patterns: matched by
`\s` in the header regex and stripped by `str.strip()` / `str.lstrip()`. -/
def isPySpace (c : Char) : Bool :=
  c = ' ' || c = '\t' || c = '\n' || c = '\r' || c = '\x0b' || c = '\x0c' ||
  c = '\x1c' || c = '\x1d' || c = '\x1e' || c = '\x1f' || c = '\x85' || c = '\xa0' ||
  c = '\u1680' || ('\u2000' ≤ c && c ≤ '\u200A') || c = '\u2028' || c = '\u2029' ||
  c = '\u202F' || c = '\u205F' || c = '\u3000'

/-- Python `str.lstrip()`. -/
def pyLStrip (s : Str) : Str := s.dropWhile isPySpace

/-- Python `str.strip()`. -/
def pyStrip (s : Str) : Str :=
  ((s.dropWhile isPySpace).reverse.dropWhile isPySpace).reverse

/-- Python `s.split("\n")` (so the empty string yields one empty field). -/
def pySplitNl : Str → List Str
  | [] => [[]]
  | c :: cs =>
    let rest := pySplitNl cs
    if c = '\n' then [] :: rest
    else
      match rest with
      | r :: rs => (c :: r) :: rs
      | [] => [[c]]

/-- Python `"\n".join(lines)`; `os.linesep` is `"\n"` on the Linux hosts the
repository targets. -/
def joinNl : List Str → Str
  | [] => []
  | [l] => l
  | l :: l' :: ls => l ++ '\n' :: joinNl (l' :: ls)

/-- The placeholder `{{CODE_COMMENT_i}}` built by `replace_comments` in
`MarkdownSplitter._process_code_blocks`. -/
def commentToken (i : Nat) : Str :=
  "\x7b\x7bCODE_COMMENT_".data ++ Nat.toDigits 10 i ++ "\x7d\x7d".data

/-- The line loop of `replace_comments`: a line whose `lstrip()` starts with
`#` is replaced by a fresh placeholder and recorded in the replacement map. -/
def protectLines (counter : Nat) : List Str → List Str × Nat × List (Str × Str)
  | [] => ([], counter, [])
  | l :: ls =>
    if (pyLStrip l).head? = some '#' then
      let tok := commentToken counter
      let (ps, c', m) := protectLines (counter + 1) ls
      (tok :: ps, c', (tok, l) :: m)
    else
      let (ps, c', m) := protectLines counter ls
      (l :: ps, c', m)

/-- Split `s` at the first occurrence of `pat`: returns `(pre, post)` with
`s = pre ++ pat ++ post` and no occurrence of `pat` starting inside `pre`. -/
def splitFirst (pat : Str) : Str → Option (Str × Str)
  | [] => none
  | c :: cs =>
    if pat.isPrefixOf (c :: cs) then some ([], (c :: cs).drop pat.length)
    else
      match splitFirst pat cs with
      | some (pre, post) => some (c :: pre, post)
      | none => none

/-- The fence pattern at the head of `s`.  The source compiles
`r"```(?:.*?)\n(.*?)```"` with `re.DOTALL`: after the literal backticks the
non-greedy `(?:.*?)\n` reaches the first newline, and the non-greedy group
`(.*?)` reaches the first closing triple backtick after that newline (if the
first newline has no closing backticks after it, no later one has either, so
the position fails).  Returns `(lang, body, rest)`. -/
def fenceAt (s : Str) : Option (Str × Str × Str) :=
  if "```".data.isPrefixOf s then
    match splitFirst ['\n'] (s.drop 3) with
    | some (lang, afterNl) =>
      match splitFirst "```".data afterNl with
      | some (body, rest) => some (lang, body, rest)
      | none => none
    | none => none
  else none

/-- Leftmost match of the fence pattern, as the `re` engine scans positions
left to right: `s = pre ++ "```" ++ lang ++ "\n" ++ body ++ "```" ++ rest`. -/
def fenceFind : Str → Option (Str × Str × Str × Str)
  | [] => none
  | c :: cs =>
    match fenceAt (c :: cs) with
    | some (lang, body, rest) => some ([], lang, body, rest)
    | none =>
      match fenceFind cs with
      | some (pre, lang, body, rest) => some (c :: pre, lang, body, rest)
      | none => none

/-- The `re.sub` loop of `_process_code_blocks`: each fence match is replaced
by `"```" + "\n".join(processed_lines) + "```"` (note the language tag and the
newline after the opening fence are not part of the replacement), and scanning
resumes after the match.  `fuel` bounds the number of replacements; every
match consumes at least seven characters, so `s.length + 1` always suffices. -/
def processAux : Nat → Nat → Str → Str × Nat × List (Str × Str)
  | 0, counter, s => (s, counter, [])
  | fuel + 1, counter, s =>
    match fenceFind s with
    | none => (s, counter, [])
    | some (pre, _lang, body, rest) =>
      let (plines, c1, m1) := protectLines counter (pySplitNl body)
      let (rest', c2, m2) := processAux fuel c1 rest
      (pre ++ "```".data ++ joinNl plines ++ "```".data ++ rest', c2, m1 ++ m2)

/-- `MarkdownSplitter._process_code_blocks`. -/
def processCodeBlocks (s : Str) : Str × List (Str × Str) :=
  let (t, _, m) := processAux (s.length + 1) 0 s
  (t, m)

/-- A match of the header pattern `^(#+)\s+(.+)$`: start offset, level
(`len(group(1))`), raw `group(2)` and end offset. -/
structure HeaderMatch where
  start : Nat
  level : Nat
  rawText : Str
  stop : Nat
  deriving Repr, DecidableEq

/-- Index of the last element of `l` satisfying `p`. -/
def lastIdxSat (p : Char → Bool) : Str → Option Nat
  | [] => none
  | c :: cs =>
    match lastIdxSat p cs with
    | some i => some (i + 1)
    | none => if p c then some 0 else none

/-- Match `^(#+)\s+(.+)$` at the head of `s`, following the `re` engine:
the greedy `#` run; then `\s+` takes the longest whitespace run that leaves a
following non-newline character for the greedy `(.+)` (backtracking one
whitespace character at a time when the run reaches the end of the string —
`\s` matches `\n`, so a header's text may come from a following line).
Returns `(level, group(2), length of the whole match)`. -/
def matchHeaderAt (s : Str) : Option (Nat × Str × Nat) :=
  let k := (s.takeWhile (fun c => c = '#')).length
  if k = 0 then none
  else
    let t := s.drop k
    let w := (t.takeWhile isPySpace).length
    if w = 0 then none
    else if w < t.length then
      let grp := (t.drop w).takeWhile (fun c => c ≠ '\n')
      some (k, grp, k + w + grp.length)
    else
      match lastIdxSat (fun c => c ≠ '\n') (t.drop 1) with
      | some j =>
        let grp := (t.drop (j + 1)).takeWhile (fun c => c ≠ '\n')
        some (k, grp, k + (j + 1) + grp.length)
      | none => none

/-- `finditer` for the MULTILINE header pattern: try a match at every line
start, scanning left to right and skipping the span of each reported match
(matches do not overlap).  `atStart` records whether the current position is
the start of the string or follows a newline; `skip` counts positions still
covered by the previous match. -/
def scanHeaders : Str → Bool → Nat → Nat → List HeaderMatch
  | [], _, _, _ => []
  | c :: cs, _, pos, skip + 1 => scanHeaders cs (decide (c = '\n')) (pos + 1) skip
  | c :: cs, atStart, pos, 0 =>
    if atStart then
      match matchHeaderAt (c :: cs) with
      | some (lvl, grp, consumed) =>
        ⟨pos, lvl, grp, pos + consumed⟩ ::
          scanHeaders cs (decide (c = '\n')) (pos + 1) (consumed - 1)
      | none => scanHeaders cs (decide (c = '\n')) (pos + 1) 0
    else scanHeaders cs (decide (c = '\n')) (pos + 1) 0

/-- All header matches of the processed text, in document order. -/
def findHeaders (s : Str) : List HeaderMatch := scanHeaders s true 0 0

/-- The nested outline dictionary of `get_document_outline`: an
insertion-ordered map from header text to nodes carrying `content`, `level`,
`children` and `siblings`, flattened into one inductive (`cons` is one
key/node entry followed by the rest of the map). -/
inductive Forest where
  | nil : Forest
  | cons (key : Str) (content : Str) (level : Nat) (children : Forest)
      (siblings : List Str) (rest : Forest) : Forest
  deriving Repr, DecidableEq

/-- Python `dict` assignment `parent[key] = fresh_node`: overwrite in place
(keeping the original position) when the key is present, else append. -/
def Forest.insert : Forest → Str → Str → Nat → Forest
  | .nil, k, content, level => .cons k content level .nil [] .nil
  | .cons k' c' l' ch' sib' rest, k, content, level =>
    if k' = k then .cons k' content level .nil [] rest
    else .cons k' c' l' ch' sib' (rest.insert k content level)

/-- Replace the children of the entry with key `k` (the builder's path stack
always names an existing entry; on a missing key the source would raise, and
this model leaves the forest unchanged). -/
def Forest.modifyChildren : Forest → Str → (Forest → Forest) → Forest
  | .nil, _, _ => .nil
  | .cons k' c' l' ch' sib' rest, k, f =>
    if k' = k then .cons k' c' l' (f ch') sib' rest
    else .cons k' c' l' ch' sib' (rest.modifyChildren k f)

/-- `current_parent = current_parent[path_element]["children"]` navigation
followed by the assignment of the new node. -/
def Forest.insertAtPath : Forest → List Str → Str → Str → Nat → Forest
  | f, [], k, content, level => f.insert k content level
  | f, p :: ps, k, content, level =>
    f.modifyChildren p (fun ch => Forest.insertAtPath ch ps k content level)

/-- Sibling groups are keyed by `(immediate_parent_text, level)`; the parent
of a top-level header is the literal string `"root"`. -/
abbrev GroupKey := Str × Nat

/-- `sibling_groups.setdefault(key, []).append(text)`. -/
def addToGroup : List (GroupKey × List Str) → GroupKey → Str → List (GroupKey × List Str)
  | [], key, t => [(key, [t])]
  | (k, v) :: rest, key, t =>
    if k = key then (k, v ++ [t]) :: rest
    else (k, v) :: addToGroup rest key t

/-- `sibling_groups[key]` when present. -/
def lookupGroup : List (GroupKey × List Str) → GroupKey → Option (List Str)
  | [], _ => none
  | (k, v) :: rest, key => if k = key then some v else lookupGroup rest key

/-- The literal parent name used for top-level sibling groups. -/
def rootKey : Str := "root".data

/-- The loop `while header_stack and header_stack[-1][0] >= current_level`:
pop the header stack (kept here with its top at the head), popping the path
stack alongside when it is nonempty (the path keeps root first, so a Python
`pop()` removes its last element). -/
def popStacks (lvl : Nat) : List (Nat × Str) → List Str → List (Nat × Str) × List Str
  | [], path => ([], path)
  | (l, t) :: rest, path =>
    if lvl ≤ l then popStacks lvl rest path.dropLast
    else ((l, t) :: rest, path)

/-- The state threaded through the first pass of `get_document_outline`. -/
structure BuildState where
  outline : Forest
  headerStack : List (Nat × Str)
  pathStack : List Str
  groups : List (GroupKey × List Str)
  deriving Repr

/-- One iteration of the first pass of `get_document_outline` for a header
occurrence `(level, text, content)`. -/
def buildStep (st : BuildState) (level : Nat) (text : Str) (content : Str) : BuildState :=
  let (stack, path) := popStacks level st.headerStack st.pathStack
  let parent :=
    match stack with
    | [] => rootKey
    | (_, t) :: _ => t
  let groups := addToGroup st.groups (parent, level) text
  match stack with
  | [] =>
    { outline := st.outline.insert text content level
      headerStack := [(level, text)]
      pathStack := [text]
      groups := groups }
  | _ =>
    { outline := st.outline.insertAtPath path text content level
      headerStack := (level, text) :: stack
      pathStack := path ++ [text]
      groups := groups }

/-- The empty build state. -/
def initState : BuildState := ⟨.nil, [], [], []⟩

/-- The first pass over all header occurrences. -/
def buildAll (headers : List (Nat × Str × Str)) : BuildState :=
  headers.foldl (fun st h => buildStep st h.1 h.2.1 h.2.2) initState

/-- The second pass `add_siblings`: each node's siblings are its group,
excluding its own header text; a node whose group key is absent keeps its
list.  The `level` argument mirrors the source's (threaded but unused in the
group key). -/
def addSiblings (groups : List (GroupKey × List Str)) : Forest → Str → Nat → Forest
  | .nil, _, _ => .nil
  | .cons k c lvl ch sib rest, parent, level =>
    let sib' :=
      match lookupGroup groups (parent, lvl) with
      | some g => g.filter (fun h => decide (h ≠ k))
      | none => sib
    .cons k c lvl (addSiblings groups ch k (lvl + 1)) sib'
      (addSiblings groups rest parent level)

/-- Content slices: header text is `group(2).strip()`, and the content of
header `i` is `processed[match_i.end() : match_{i+1}.start()].strip()` (the
last header's content runs to the end of the processed text). -/
def contentSlices (processed : Str) : List HeaderMatch → List (Nat × Str × Str)
  | [] => []
  | m :: rest =>
    let nextStart :=
      match rest with
      | m2 :: _ => m2.start
      | [] => processed.length
    (m.level, pyStrip m.rawText, pyStrip ((processed.drop m.stop).take (nextStart - m.stop)))
      :: contentSlices processed rest

/-- `MarkdownSplitter.get_document_outline`. -/
def getDocumentOutline (text : Str) : Forest :=
  if pyStrip text = [] then .nil
  else
    let processed := (processCodeBlocks text).1
    let headers := findHeaders processed
    if headers = [] then .nil
    else
      let st := buildAll (contentSlices processed headers)
      addSiblings st.groups st.outline rootKey 1

/-- `SectionMetadata` (the fields the splitter populates; the optional
normalization fields default to empty and are never set by the splitter). -/
structure SectionMetadata where
  parents : List (Str × Str)
  siblings : List Str
  deriving Repr, DecidableEq

/-- A `Section` record. -/
structure Section where
  sectionHeader : Str
  sectionText : Str
  headerLevel : Nat
  metadata : SectionMetadata
  deriving Repr, DecidableEq

/-- `f"h{level}"`. -/
def hKey (level : Nat) : Str := 'h' :: Nat.toDigits 10 level

/-- `new_parents[f"h{level}"] = header` on the ordered parent mapping. -/
def setParent : List (Str × Option Str) → Str → Str → List (Str × Option Str)
  | [], key, v => [(key, some v)]
  | (k, old) :: rest, key, v =>
    if k = key then (k, some v) :: rest else (k, old) :: setParent rest key v

/-- `{f"h{i}": None for i in range(1, 5)}`. -/
def initialParents : List (Str × Option Str) :=
  [(hKey 1, none), (hKey 2, none), (hKey 3, none), (hKey 4, none)]

/-- `{k: v for k, v in parent_headers.items() if v is not None}`. -/
def presentParents (ps : List (Str × Option Str)) : List (Str × Str) :=
  ps.filterMap (fun kv => kv.2.map (fun v => (kv.1, v)))

/-- The `clean_section_header` field validator of `MarkdownContent`
(`models.py` lines 55-58), applied to `section_header` on every `Section`
construction: `re.sub(r"^#+\s*", "", value)`.  Without `re.MULTILINE` the
anchor matches only at the start of the string, so at most one substitution
happens: a leading run of `#` and the whitespace run after it are dropped
(`\s` in Unicode mode matches exactly the `str.isspace` characters). -/
def cleanSectionHeader (s : Str) : Str :=
  if s.head? = some '#' then
    (s.dropWhile (fun c => c = '#')).dropWhile isPySpace
  else s

/-- `MarkdownSplitter._create_sections_from_outline`.  The outline key is
stored raw in the parents mapping (`new_parents[f"h{level}"] = header`), but
the constructed `Section`'s header field passes through the
`clean_section_header` validator. -/
def createSections : Forest → List (Str × Option Str) → List Section
  | .nil, _ => []
  | .cons k c lvl ch sib rest, parents =>
    { sectionHeader := cleanSectionHeader k, sectionText := c, headerLevel := lvl,
      metadata := { parents := presentParents parents, siblings := sib } }
      :: (createSections ch (setParent parents (hKey lvl) k) ++ createSections rest parents)

/-- `MarkdownSplitter.split_text`. -/
def splitText (text : Str) : List Section :=
  if pyStrip text = [] then []
  else createSections (getDocumentOutline text) initialParents

/-- A filesystem entry, for modelling `from_file`'s path checks. -/
inductive FsEntry where
  | file (content : Str)
  | directory
  deriving Repr, DecidableEq

/-- The error taxonomy of `from_file` (`FileNotFoundError` /
`IsADirectoryError`). -/
inductive FileError where
  | fileNotFound (path : Str)
  | isADirectory (path : Str)
  deriving Repr, DecidableEq

/-- `MarkdownSplitter.from_file`, with the filesystem as an oracle from paths
to entries (`none` means the path does not exist). -/
def fromFile (fs : Str → Option FsEntry) (path : Str) : Except FileError (List Section) :=
  match fs path with
  | none => .error (.fileNotFound path)
  | some .directory => .error (.isADirectory path)
  | some (.file content) => .ok (splitText content)

/-!
## Lemmas about the header scan
-/

/-- The line-start flag after scanning the characters of `u`, starting from
flag `flag`: with `u` nonempty, whether `u` ends in a newline. -/
def flagAfter : Str → Bool → Bool
  | [], flag => flag
  | c :: cs, _ => flagAfter cs (decide (c = '\n'))

/-- Scanning with a skip budget that covers `u` steps over `u` entirely. -/
theorem scanHeaders_skip (u : Str) (z : Str) (flag : Bool) (pos k : Nat) :
    scanHeaders (u ++ z) flag pos (u.length + k) =
      scanHeaders z (flagAfter u flag) (pos + u.length) k := by
  induction u generalizing flag pos with
  | nil => simp [flagAfter]
  | cons c u' ih =>
    have h1 : (c :: u').length + k = (u'.length + k) + 1 := by simp [Nat.succ_add]
    rw [List.cons_append, h1]
    show scanHeaders (u' ++ z) (decide (c = '\n')) (pos + 1) (u'.length + k) = _
    rw [ih]
    show _ = scanHeaders z (flagAfter u' (decide (c = '\n'))) (pos + (c :: u').length) k
    have h2 : pos + 1 + u'.length = pos + (c :: u').length := by
      simp only [List.length_cons]
      omega
    rw [h2]

/-- A position whose character is not `#` starts no header match. -/
theorem matchHeaderAt_eq_none (s : Str) (h : s.head? ≠ some '#') :
    matchHeaderAt s = none := by
  unfold matchHeaderAt
  have hk : (s.takeWhile (fun c => decide (c = '#'))).length = 0 := by
    cases s with
    | nil => simp
    | cons c cs =>
      have hc : ¬ (c = '#') := by
        intro hc
        exact h (by simp [hc])
      simp [List.takeWhile, hc]
  simp [hk]

/-- A reported match begins with a `#`. -/
theorem matchHeaderAt_head (s : Str) (x : Nat × Str × Nat)
    (h : matchHeaderAt s = some x) : s.head? = some '#' := by
  by_contra hh
  rw [matchHeaderAt_eq_none s hh] at h
  exact Option.noConfusion h

/-- Scanning a stretch that contains no `#` reports no match inside it. -/
theorem scanHeaders_no_hash (u z : Str) (flag : Bool) (pos : Nat)
    (h : '#' ∉ u) :
    scanHeaders (u ++ z) flag pos 0 =
      scanHeaders z (flagAfter u flag) (pos + u.length) 0 := by
  induction u generalizing flag pos with
  | nil => simp [flagAfter]
  | cons c u' ih =>
    have hc : c ≠ '#' := fun hc => h (by simp [hc])
    have hm : matchHeaderAt (c :: (u' ++ z)) = none :=
      matchHeaderAt_eq_none _ (by simp [hc])
    rw [List.cons_append]
    have hstep : scanHeaders (c :: (u' ++ z)) flag pos 0 =
        scanHeaders (u' ++ z) (decide (c = '\n')) (pos + 1) 0 := by
      cases flag <;> simp [scanHeaders, hm]
    have hu' : '#' ∉ u' := fun hx => h (List.mem_cons_of_mem c hx)
    rw [hstep, ih _ _ hu']
    show _ = scanHeaders z (flagAfter u' (decide (c = '\n'))) (pos + (c :: u').length) 0
    have h2 : pos + 1 + u'.length = pos + (c :: u').length := by
      simp only [List.length_cons]
      omega
    rw [h2]

/-- Dropping the `#` run reaches the `dropWhile`. -/
theorem drop_length_takeWhile (p : Char → Bool) (s : Str) :
    s.drop (s.takeWhile p).length = s.dropWhile p := by
  induction s with
  | nil => rfl
  | cons c cs ih =>
    by_cases hp : p c
    · simp [List.takeWhile_cons, List.dropWhile_cons, hp, ih]
    · simp [List.takeWhile_cons, List.dropWhile_cons, hp]

/-- A position whose `#` run is followed by the end of the string or by a
non-whitespace character starts no header match (the `\s+` of the pattern
cannot be satisfied). -/
theorem matchHeaderAt_eq_none_of_no_space (s : Str)
    (h : ((s.dropWhile (fun c => decide (c = '#'))).head?.all
        (fun c => ! isPySpace c)) = true) :
    matchHeaderAt s = none := by
  unfold matchHeaderAt
  by_cases hk : (s.takeWhile (fun c => decide (c = '#'))).length = 0
  · simp [hk]
  · have hdrop : s.drop (s.takeWhile (fun c => decide (c = '#'))).length =
        s.dropWhile (fun c => decide (c = '#')) := drop_length_takeWhile _ s
    have hw : ((s.drop (s.takeWhile (fun c => decide (c = '#'))).length).takeWhile
        isPySpace).length = 0 := by
      rw [hdrop]
      cases hds : s.dropWhile (fun c => decide (c = '#')) with
      | nil => simp
      | cons c cs =>
        have := h
        rw [hds] at this
        simp [Option.all] at this
        simp [List.takeWhile, this]
    simp [hk, hw]

/-- Soundness of the scan: every reported match lies at or after the scan
position, the header pattern matches at its start offset, and its start is
either the scan position itself (with the line-start flag set and no skip)
or is preceded by a newline. -/
theorem scanHeaders_sound (s : Str) (flag : Bool) (pos skip : Nat)
    (m : HeaderMatch) (hm : m ∈ scanHeaders s flag pos skip) :
    pos ≤ m.start ∧
    matchHeaderAt (s.drop (m.start - pos)) =
      some (m.level, m.rawText, m.stop - m.start) ∧
    ((m.start = pos ∧ flag = true ∧ skip = 0) ∨
      (pos < m.start ∧ s.get? (m.start - pos - 1) = some '\n')) := by
  induction s generalizing flag pos skip with
  | nil => simp [scanHeaders] at hm
  | cons c cs ih =>
    have step : ∀ (flag' : Bool) (skip' : Nat),
        m ∈ scanHeaders cs flag' (pos + 1) skip' → flag' = decide (c = '\n') →
        pos ≤ m.start ∧
        matchHeaderAt ((c :: cs).drop (m.start - pos)) =
          some (m.level, m.rawText, m.stop - m.start) ∧
        ((m.start = pos ∧ flag = true ∧ skip = 0) ∨
          (pos < m.start ∧ (c :: cs).get? (m.start - pos - 1) = some '\n')) := by
      intro flag' skip' hmem hflag
      obtain ⟨h1, h2, h3⟩ := ih flag' (pos + 1) skip' hmem
      refine ⟨by omega, ?_, ?_⟩
      · have : m.start - pos = (m.start - (pos + 1)) + 1 := by omega
        rw [this, List.drop_succ_cons]
        exact h2
      · right
        rcases h3 with ⟨hs, hf, _⟩ | ⟨hs, hg⟩
        · refine ⟨by omega, ?_⟩
          have : m.start - pos - 1 = 0 := by omega
          rw [this]
          have : c = '\n' := by
            rw [hflag] at hf
            exact of_decide_eq_true hf
          simp [this]
        · refine ⟨by omega, ?_⟩
          have : m.start - pos - 1 = (m.start - (pos + 1) - 1) + 1 := by omega
          rw [this]
          simpa using hg
    cases skip with
    | succ k =>
      rw [show scanHeaders (c :: cs) flag pos (k + 1) =
            scanHeaders cs (decide (c = '\n')) (pos + 1) k from rfl] at hm
      exact step _ k hm rfl
    | zero =>
      by_cases hflag : flag = true
      · subst hflag
        rw [show scanHeaders (c :: cs) true pos 0 =
              (match matchHeaderAt (c :: cs) with
              | some (lvl, grp, consumed) =>
                ⟨pos, lvl, grp, pos + consumed⟩ ::
                  scanHeaders cs (decide (c = '\n')) (pos + 1) (consumed - 1)
              | none => scanHeaders cs (decide (c = '\n')) (pos + 1) 0) from by
            simp [scanHeaders]] at hm
        cases hmt : matchHeaderAt (c :: cs) with
        | some x =>
          obtain ⟨lvl, grp, consumed⟩ := x
          rw [hmt] at hm
          rcases List.mem_cons.mp hm with rfl | hm'
          · refine ⟨le_refl _, ?_, Or.inl ⟨rfl, rfl, rfl⟩⟩
            show matchHeaderAt ((c :: cs).drop (pos - pos)) =
              some (lvl, grp, pos + consumed - pos)
            have h3 : pos + consumed - pos = consumed := by omega
            rw [Nat.sub_self, List.drop_zero, hmt, h3]
          · exact step _ (consumed - 1) hm' rfl
        | none =>
          rw [hmt] at hm
          exact step _ 0 hm rfl
      · have hf : flag = false := by
          cases flag
          · rfl
          · exact absurd rfl hflag
        subst hf
        rw [show scanHeaders (c :: cs) false pos 0 =
              scanHeaders cs (decide (c = '\n')) (pos + 1) 0 from by
            simp [scanHeaders]] at hm
        exact step _ 0 hm rfl

/-!
## Lemmas about the fence substitution
-/

/-- `splitFirst` really splits at an occurrence of the pattern. -/
theorem splitFirst_sound (pat s pre post : Str)
    (h : splitFirst pat s = some (pre, post)) : s = pre ++ pat ++ post := by
  induction s generalizing pre with
  | nil => simp [splitFirst] at h
  | cons c cs ih =>
    rw [splitFirst] at h
    by_cases hpre : pat.isPrefixOf (c :: cs)
    · rw [if_pos hpre] at h
      obtain ⟨t, ht⟩ := (List.isPrefixOf_iff_prefix.mp hpre)
      obtain ⟨rfl, rfl⟩ : pre = [] ∧ post = (c :: cs).drop pat.length := by
        cases h
        exact ⟨rfl, rfl⟩
      rw [← ht, List.drop_left]
      simp
    · rw [if_neg hpre] at h
      cases hrec : splitFirst pat cs with
      | none => rw [hrec] at h; exact absurd h (by simp)
      | some pr =>
        obtain ⟨pre', post'⟩ := pr
        rw [hrec] at h
        obtain ⟨rfl, rfl⟩ : pre = c :: pre' ∧ post = post' := by
          cases h
          exact ⟨rfl, rfl⟩
        have := ih pre' hrec
        simp [this]

/-- A `Bool`-level prefix fact: the fence delimiter is not a prefix of a
string whose backticks stop before its third character. -/
theorem triple_not_prefixOf (s : Str) (h : ¬ "```".data <+: s) :
    "```".data.isPrefixOf s = false :=
  Bool.eq_false_iff.mpr (fun htrue => h (List.isPrefixOf_iff_prefix.mp htrue))

/-- No occurrence of three backticks in a backtick-free string. -/
theorem splitFirst_triple_eq_none (s : Str) (h : '`' ∉ s) :
    splitFirst "```".data s = none := by
  induction s with
  | nil => rfl
  | cons c cs ih =>
    have hc : c ≠ '`' := fun hc => h (by simp [hc])
    have hpre : "```".data.isPrefixOf (c :: cs) = false := by
      refine triple_not_prefixOf _ (fun hx => ?_)
      obtain ⟨t, ht⟩ := hx
      have : '`' = c := by
        have := congrArg List.head? ht
        simpa using this
      exact hc this.symm
    rw [splitFirst, hpre]
    simp only [Bool.false_eq_true, if_false]
    rw [ih (fun hx => h (by simp [hx]))]

/-- The fence pattern needs a backtick at its start position. -/
theorem fenceAt_eq_none_of_head (s : Str) (h : s.head? ≠ some '`') :
    fenceAt s = none := by
  unfold fenceAt
  have hpre : "```".data.isPrefixOf s = false := by
    refine triple_not_prefixOf _ (fun hx => ?_)
    obtain ⟨t, ht⟩ := hx
    apply h
    rw [← ht]
    rfl
  simp [hpre]

/-- An opening fence with no later closing backticks matches nothing. -/
theorem fenceAt_unterminated (q : Str) (hq : '`' ∉ q) :
    fenceAt ("```".data ++ q) = none := by
  unfold fenceAt
  have hpre : "```".data.isPrefixOf ("```".data ++ q) = true :=
    List.isPrefixOf_iff_prefix.mpr ⟨q, rfl⟩
  rw [hpre, if_pos rfl]
  have hdrop : ("```".data ++ q).drop 3 = q := rfl
  rw [hdrop]
  cases hsp : splitFirst ['\n'] q with
  | none => rfl
  | some pr =>
    obtain ⟨lang, afterNl⟩ := pr
    have hdec := splitFirst_sound ['\n'] q lang afterNl hsp
    have hafter : '`' ∉ afterNl := by
      intro hx
      exact hq (by rw [hdec]; simp [hx])
    show (match splitFirst "```".data afterNl with
      | some (body, rest) => some (lang, body, rest)
      | none => none) = none
    rw [splitFirst_triple_eq_none afterNl hafter]

/-- A backtick-free string contains no fence match. -/
theorem fenceFind_eq_none (s : Str) (h : '`' ∉ s) : fenceFind s = none := by
  induction s with
  | nil => rfl
  | cons c cs ih =>
    have hc : c ≠ '`' := fun hc => h (by simp [hc])
    rw [fenceFind, fenceAt_eq_none_of_head _ (by simp [hc]),
      ih (fun hx => h (by simp [hx]))]

/-- A document whose only backticks are one unterminated opening fence has no
fence match at all. -/
theorem fenceFind_unterminated (p q : Str) (hp : '`' ∉ p) (hq : '`' ∉ q) :
    fenceFind (p ++ "```".data ++ q) = none := by
  induction p with
  | nil =>
    show fenceFind ('`' :: '`' :: '`' :: q) = none
    have h1 : fenceAt ('`' :: '`' :: '`' :: q) = none := fenceAt_unterminated q hq
    have h2 : fenceAt ('`' :: '`' :: q) = none := by
      unfold fenceAt
      have hpre : "```".data.isPrefixOf ('`' :: '`' :: q) = false := by
        refine triple_not_prefixOf _ (fun hx => ?_)
        obtain ⟨t, ht⟩ := hx
        have hqt : q = '`' :: t := by
          have := congrArg List.tail (congrArg List.tail ht)
          simpa using this.symm
        exact hq (by rw [hqt]; simp)
      simp [hpre]
    have h3 : fenceAt ('`' :: q) = none := by
      unfold fenceAt
      have hpre : "```".data.isPrefixOf ('`' :: q) = false := by
        refine triple_not_prefixOf _ (fun hx => ?_)
        obtain ⟨t, ht⟩ := hx
        have hqt : q = '`' :: '`' :: t := by
          have := congrArg List.tail ht
          simpa using this.symm
        exact hq (by rw [hqt]; simp)
      simp [hpre]
    rw [fenceFind, h1, fenceFind, h2, fenceFind, h3, fenceFind_eq_none q hq]
  | cons c p' ih =>
    have hc : c ≠ '`' := fun hc => hp (by simp [hc])
    have hp' : '`' ∉ p' := fun hx => hp (by simp [hx])
    show fenceFind (c :: (p' ++ "```".data ++ q)) = none
    rw [fenceFind, fenceAt_eq_none_of_head _ (by simp [hc]), ih hp']

/-- When the fence regex finds no match, `_process_code_blocks` returns the
text unchanged with an empty replacement map. -/
theorem processCodeBlocks_of_none (s : Str) (h : fenceFind s = none) :
    processCodeBlocks s = (s, []) := by
  unfold processCodeBlocks
  show (match processAux (s.length + 1) 0 s with
    | (t, _, m) => (t, m)) = (s, [])
  rw [show processAux (s.length + 1) 0 s = (s, 0, []) from by
    rw [processAux, h]]

/-!
## Parametric documents: alternating header lines and contents

`chunks items` is the document made of one header line per item, each
followed by its body content.  The lemmas below characterise the header
matches, the content slices, and hence the whole outline pipeline on such
documents, for arbitrary texts and contents satisfying `goodItem`.
-/

/-- The header line `"#" * k + " " + t + "\n"`. -/
def headerLine (k : Nat) (t : Str) : Str :=
  List.replicate k '#' ++ ' ' :: (t ++ ['\n'])

/-- A document of header lines, each followed by its content. -/
def chunks : List (Nat × Str × Str) → Str
  | [] => []
  | (k, t, c) :: rest => headerLine k t ++ (c ++ chunks rest)

/-- Well-formedness of one `(level, text, content)` item: a positive level;
a nonempty, newline-free, already-stripped header text; a `#`-free content
ending at a line boundary. -/
def goodItem : Nat × Str × Str → Prop
  | (k, t, c) => 0 < k ∧ t ≠ [] ∧ '\n' ∉ t ∧ pyStrip t = t ∧ '#' ∉ c ∧
      (c = [] ∨ c.getLast? = some '\n')

instance : ∀ it : Nat × Str × Str, Decidable (goodItem it)
  | (k, t, c) =>
    inferInstanceAs (Decidable (0 < k ∧ t ≠ [] ∧ '\n' ∉ t ∧ pyStrip t = t ∧
      '#' ∉ c ∧ (c = [] ∨ c.getLast? = some '\n')))

/-- The header matches of `chunks items` when scanning starts at `pos`. -/
def matchList (pos : Nat) : List (Nat × Str × Str) → List HeaderMatch
  | [] => []
  | (k, t, c) :: rest =>
    ⟨pos, k, t, pos + (k + 1 + t.length)⟩ ::
      matchList (pos + (headerLine k t).length + c.length) rest

theorem length_headerLine (k : Nat) (t : Str) :
    (headerLine k t).length = k + t.length + 2 := by
  simp [headerLine]
  omega

/-- `dropWhile` keeps every element that falsifies the predicate. -/
theorem mem_dropWhile_of_not (p : Char → Bool) (l : Str) (c : Char)
    (hc : p c = false) (hm : c ∈ l) : c ∈ l.dropWhile p := by
  induction l with
  | nil => exact absurd hm (by simp)
  | cons a l' ih =>
    rw [List.dropWhile_cons]
    by_cases hp : p a
    · rw [if_pos hp]
      rcases List.mem_cons.mp hm with rfl | hm'
      · rw [hp] at hc
        exact absurd hc (by simp)
      · exact ih hm'
    · rw [if_neg hp]
      exact hm

/-- A string containing a non-whitespace character does not strip to the
empty string. -/
theorem pyStrip_ne_nil (s : Str) (c : Char) (hc : isPySpace c = false)
    (hm : c ∈ s) : pyStrip s ≠ [] := by
  have h1 : c ∈ s.dropWhile isPySpace := mem_dropWhile_of_not _ s c hc hm
  have h2 : c ∈ (s.dropWhile isPySpace).reverse := by simpa using h1
  have h3 : c ∈ (s.dropWhile isPySpace).reverse.dropWhile isPySpace :=
    mem_dropWhile_of_not _ _ c hc h2
  have h4 : c ∈ pyStrip s := by
    unfold pyStrip
    simpa using h3
  exact List.ne_nil_of_mem h4

/-- Stripping absorbs a leading whitespace character. -/
theorem pyStrip_cons_space (d : Char) (hd : isPySpace d = true) (c : Str) :
    pyStrip (d :: c) = pyStrip c := by
  unfold pyStrip
  rw [List.dropWhile_cons, if_pos hd]

/-- A stripped nonempty string starts with a non-whitespace character. -/
theorem head_not_space_of_pyStrip (t : Str) (h : pyStrip t = t) (hne : t ≠ []) :
    ∃ c cs, t = c :: cs ∧ isPySpace c = false := by
  cases t with
  | nil => exact absurd rfl hne
  | cons c cs =>
    refine ⟨c, cs, rfl, ?_⟩
    by_contra hws
    have hws' : isPySpace c = true := by
      cases hcc : isPySpace c
      · exact absurd hcc hws
      · rfl
    have hlen : (pyStrip (c :: cs)).length ≤ cs.length := by
      have h1 : (c :: cs).dropWhile isPySpace = cs.dropWhile isPySpace := by
        rw [List.dropWhile_cons, if_pos hws']
      calc (pyStrip (c :: cs)).length
          ≤ ((c :: cs).dropWhile isPySpace).length := by
            unfold pyStrip
            rw [List.length_reverse]
            calc (((c :: cs).dropWhile isPySpace).reverse.dropWhile isPySpace).length
                ≤ ((c :: cs).dropWhile isPySpace).reverse.length :=
                  (List.dropWhile_sublist _).length_le
              _ = ((c :: cs).dropWhile isPySpace).length := List.length_reverse _
        _ = (cs.dropWhile isPySpace).length := by rw [h1]
        _ ≤ cs.length := (List.dropWhile_sublist _).length_le
    rw [h] at hlen
    simp at hlen

theorem takeWhile_hash (k : Nat) (x : Str) :
    (List.replicate k '#' ++ ' ' :: x).takeWhile (fun c => decide (c = '#')) =
      List.replicate k '#' := by
  induction k with
  | zero => simp [List.takeWhile_cons]
  | succ k' ih =>
    rw [List.replicate_succ, List.cons_append, List.takeWhile_cons]
    simp [ih]

theorem takeWhile_no_nl (t r : Str) (h : '\n' ∉ t) :
    (t ++ '\n' :: r).takeWhile (fun c => c ≠ '\n') = t := by
  induction t with
  | nil => rw [List.nil_append, List.takeWhile_cons, if_neg (by decide)]
  | cons c cs ih =>
    have hc : c ≠ '\n' := fun hc => h (by simp [hc])
    rw [List.cons_append, List.takeWhile_cons, if_pos (decide_eq_true hc)]
    rw [ih (fun hx => h (by simp [hx]))]

/-- The header pattern on a well-formed header line: level `k`, raw text `t`,
match length `k + 1 + |t|` (the trailing newline is not consumed). -/
theorem matchHeaderAt_headerLine (k : Nat) (t r : Str)
    (hk : 0 < k) (hne : t ≠ []) (hnl : '\n' ∉ t) (hst : pyStrip t = t) :
    matchHeaderAt (List.replicate k '#' ++ ' ' :: (t ++ '\n' :: r)) =
      some (k, t, k + 1 + t.length) := by
  obtain ⟨c0, cs0, ht0, hws⟩ := head_not_space_of_pyStrip t hst hne
  have htake : (List.replicate k '#' ++ ' ' :: (t ++ '\n' :: r)).takeWhile
      (fun c => decide (c = '#')) = List.replicate k '#' :=
    takeWhile_hash k (t ++ '\n' :: r)
  have hdrop : (List.replicate k '#' ++ ' ' :: (t ++ '\n' :: r)).drop k =
      ' ' :: (t ++ '\n' :: r) := by
    have := List.drop_left (List.replicate k '#') (' ' :: (t ++ '\n' :: r))
    rwa [List.length_replicate] at this
  have hw : (' ' :: (t ++ '\n' :: r)).takeWhile isPySpace = [' '] := by
    rw [List.takeWhile_cons, if_pos (by decide)]
    rw [ht0, List.cons_append, List.takeWhile_cons, if_neg (by simp [hws])]
  simp only [matchHeaderAt]
  rw [htake, List.length_replicate, if_neg (show ¬ k = 0 by omega), hdrop, hw]
  simp only [List.length_cons, List.length_nil, Nat.zero_add]
  rw [if_neg (by omega), if_pos (by simp)]
  rw [show (' ' :: (t ++ '\n' :: r)).drop 1 = t ++ '\n' :: r from rfl]
  rw [takeWhile_no_nl t r hnl]

/-- `flagAfter` only looks at the last character. -/
theorem flagAfter_eq_getLast (u : Str) (flag : Bool) :
    flagAfter u flag =
      (match u.getLast? with
      | none => flag
      | some d => decide (d = '\n')) := by
  induction u generalizing flag with
  | nil => rfl
  | cons c u' ih =>
    rw [show flagAfter (c :: u') flag = flagAfter u' (decide (c = '\n')) from rfl]
    rw [ih]
    cases u' with
    | nil => rfl
    | cons d u'' =>
      rw [List.getLast?_cons_cons]
      cases hl : (d :: u'').getLast? with
      | none => exact absurd (List.getLast?_eq_none_iff.mp hl) (by simp)
      | some e => rfl

theorem flagAfter_of_no_nl (u : Str) (flag : Bool) (h : '\n' ∉ u)
    (hne : u ≠ []) : flagAfter u flag = false := by
  rw [flagAfter_eq_getLast]
  cases hl : u.getLast? with
  | none => exact absurd (List.getLast?_eq_none_iff.mp hl) hne
  | some d =>
    have hd : d ∈ u := List.mem_of_getLast?_eq_some hl
    have : d ≠ '\n' := fun he => h (he ▸ hd)
    simp [this]

theorem flagAfter_of_last_nl (u : Str) (flag : Bool)
    (h : u.getLast? = some '\n') : flagAfter u flag = true := by
  rw [flagAfter_eq_getLast, h]
  simp

/-- The header scan on a chunked document reports exactly one match per
header line, at the expected offsets. -/
theorem scanHeaders_chunks (items : List (Nat × Str × Str)) (pos : Nat)
    (h : ∀ it ∈ items, goodItem it) :
    scanHeaders (chunks items) true pos 0 = matchList pos items := by
  induction items generalizing pos with
  | nil => simp [chunks, scanHeaders, matchList]
  | cons it rest ih =>
    obtain ⟨k, t, c⟩ := it
    obtain ⟨hk, hne, hnl, hst, hcc, hcl⟩ := h _ (List.mem_cons_self ..)
    obtain ⟨k', rfl⟩ : ∃ k', k = k' + 1 := ⟨k - 1, by omega⟩
    have hshape : chunks ((k' + 1, t, c) :: rest) =
        '#' :: (List.replicate k' '#' ++ ' ' :: (t ++ '\n' :: (c ++ chunks rest))) := by
      show headerLine (k' + 1) t ++ (c ++ chunks rest) = _
      rw [headerLine, List.replicate_succ]
      simp [List.append_assoc]
    rw [hshape]
    have hmatch : matchHeaderAt
        ('#' :: (List.replicate k' '#' ++ ' ' :: (t ++ '\n' :: (c ++ chunks rest)))) =
        some (k' + 1, t, k' + 1 + 1 + t.length) := by
      have := matchHeaderAt_headerLine (k' + 1) t (c ++ chunks rest) (by omega) hne hnl hst
      rw [List.replicate_succ, List.cons_append] at this
      exact this
    rw [show scanHeaders
        ('#' :: (List.replicate k' '#' ++ ' ' :: (t ++ '\n' :: (c ++ chunks rest))))
        true pos 0 =
        (match matchHeaderAt
          ('#' :: (List.replicate k' '#' ++ ' ' :: (t ++ '\n' :: (c ++ chunks rest)))) with
        | some (lvl, grp, consumed) =>
          ⟨pos, lvl, grp, pos + consumed⟩ ::
            scanHeaders (List.replicate k' '#' ++ ' ' :: (t ++ '\n' :: (c ++ chunks rest)))
              (decide ('#' = '\n')) (pos + 1) (consumed - 1)
        | none => scanHeaders (List.replicate k' '#' ++ ' ' :: (t ++ '\n' :: (c ++ chunks rest)))
            (decide ('#' = '\n')) (pos + 1) 0) from by simp [scanHeaders]]
    rw [hmatch]
    show (⟨pos, k' + 1, t, pos + (k' + 1 + 1 + t.length)⟩ :: _ : List HeaderMatch) = _
    rw [matchList]
    refine congrArg₂ _ rfl ?_
    -- step over the rest of the header line with the skip budget
    have hassoc : List.replicate k' '#' ++ ' ' :: (t ++ '\n' :: (c ++ chunks rest)) =
        (List.replicate k' '#' ++ ' ' :: t) ++ ('\n' :: (c ++ chunks rest)) := by
      simp [List.append_assoc]
    have hlen : (List.replicate k' '#' ++ ' ' :: t).length = k' + 1 + t.length := by
      simp
      omega
    have hskip : k' + 1 + 1 + t.length - 1 =
        (List.replicate k' '#' ++ ' ' :: t).length + 0 := by
      rw [hlen]
      omega
    rw [hassoc, hskip, scanHeaders_skip]
    have hflag : flagAfter (List.replicate k' '#' ++ ' ' :: t) (decide ('#' = '\n')) =
        false := by
      refine flagAfter_of_no_nl _ _ (fun hx => ?_) (by simp)
      rcases List.mem_append.mp hx with hx1 | hx2
      · exact absurd (List.eq_of_mem_replicate hx1) (by decide)
      · rcases List.mem_cons.mp hx2 with he | hx3
        · exact absurd he (by decide)
        · exact hnl hx3
    rw [hflag]
    have hnosc : '#' ∉ '\n' :: c := by
      intro hx
      rcases List.mem_cons.mp hx with he | hx2
      · exact absurd he (by decide)
      · exact hcc hx2
    have hcons : ('\n' :: (c ++ chunks rest)) = ('\n' :: c) ++ chunks rest := by
      simp
    rw [hcons, scanHeaders_no_hash _ _ _ _ hnosc]
    have hflag2 : flagAfter ('\n' :: c) false = true := by
      rcases hcl with rfl | hlast
      · decide
      · cases c with
        | nil => simp at hlast
        | cons d c' =>
          refine flagAfter_of_last_nl _ _ ?_
          rw [List.getLast?_cons_cons]
          exact hlast
    rw [hflag2]
    have hpos : pos + 1 + (List.replicate k' '#' ++ ' ' :: t).length +
        ('\n' :: c).length = pos + (headerLine (k' + 1) t).length + c.length := by
      rw [hlen, length_headerLine]
      simp only [List.length_cons]
      omega
    rw [hpos, ih _ (fun it hit => h it (List.mem_cons_of_mem _ hit))]

theorem drop_len_append (x y : Str) (n : Nat) :
    (x ++ y).drop (x.length + n) = y.drop n := by
  induction x with
  | nil => simp
  | cons c x' ih =>
    have h1 : (c :: x').length + n = (x'.length + n) + 1 := by
      simp [Nat.succ_add]
    rw [List.cons_append, h1, List.drop_succ_cons, ih]

/-- The content slices of a chunked document recover each item's stripped
content (the slice between a match's end and the next match's start is the
newline ending the header line followed by the item's content). -/
theorem contentSlices_chunks (items : List (Nat × Str × Str)) (pre : Str)
    (h : ∀ it ∈ items, goodItem it) :
    contentSlices (pre ++ chunks items) (matchList pre.length items) =
      items.map (fun it => (it.1, it.2.1, pyStrip it.2.2)) := by
  induction items generalizing pre with
  | nil => simp [chunks, contentSlices, matchList]
  | cons it rest ih =>
    obtain ⟨k, t, c⟩ := it
    obtain ⟨hk, hne, hnl, hst, hcc, hcl⟩ := h _ (List.mem_cons_self ..)
    have hP : pre ++ chunks ((k, t, c) :: rest) =
        (pre ++ (List.replicate k '#' ++ ' ' :: t)) ++ ('\n' :: (c ++ chunks rest)) := by
      simp [chunks, headerLine, List.append_assoc]
    have hx : (pre ++ (List.replicate k '#' ++ ' ' :: t)).length =
        pre.length + (k + 1 + t.length) := by
      simp
      omega
    have hdropstop : (pre ++ chunks ((k, t, c) :: rest)).drop
        (pre.length + (k + 1 + t.length)) = '\n' :: (c ++ chunks rest) := by
      rw [hP]
      have h0 := drop_len_append (pre ++ (List.replicate k '#' ++ ' ' :: t))
        ('\n' :: (c ++ chunks rest)) 0
      rw [hx, Nat.add_zero, List.drop_zero] at h0
      exact h0
    have hlenP : (pre ++ chunks ((k, t, c) :: rest)).length =
        pre.length + (k + 1 + t.length) + (1 + (c.length + (chunks rest).length)) := by
      simp [chunks, headerLine]
      omega
    cases rest with
    | nil =>
      rw [matchList, matchList]
      simp only [contentSlices]
      rw [hdropstop]
      have htake : ('\n' :: (c ++ chunks ([] : List (Nat × Str × Str)))).take
          ((pre ++ chunks [(k, t, c)]).length - (pre.length + (k + 1 + t.length))) =
          '\n' :: c := by
        rw [hlenP]
        have h2 : pre.length + (k + 1 + t.length) + (1 + (c.length + (chunks ([] : List (Nat × Str × Str))).length)) -
            (pre.length + (k + 1 + t.length)) = 1 + (c.length + 0) := by
          simp [chunks]
        rw [h2]
        show ('\n' :: (c ++ [])).take (1 + (c.length + 0)) = '\n' :: c
        rw [List.append_nil, Nat.add_zero,
          show 1 + c.length = c.length + 1 from by omega, List.take_succ_cons,
          List.take_length]
      rw [htake, hst]
      have hc' : pyStrip ('\n' :: c) = pyStrip c := pyStrip_cons_space '\n' (by decide) c
      rw [hc']
      simp [contentSlices, matchList]
    | cons it2 rest' =>
      rw [matchList]
      have hms : matchList (pre.length + (headerLine k t).length + c.length)
          (it2 :: rest') =
          ⟨pre.length + (headerLine k t).length + c.length, it2.1, it2.2.1,
            pre.length + (headerLine k t).length + c.length +
              (it2.1 + 1 + it2.2.1.length)⟩ ::
            matchList (pre.length + (headerLine k t).length + c.length +
              (headerLine it2.1 it2.2.1).length + it2.2.2.length) rest' := by
        obtain ⟨k2, t2, c2⟩ := it2
        rw [matchList]
      rw [hms]
      simp only [contentSlices]
      rw [hdropstop]
      have h2 : pre.length + (headerLine k t).length + c.length -
          (pre.length + (k + 1 + t.length)) = 1 + c.length := by
        rw [length_headerLine]
        omega
      rw [h2]
      have htake : ('\n' :: (c ++ chunks (it2 :: rest'))).take (1 + c.length) =
          '\n' :: c := by
        rw [show (1 + c.length) = c.length + 1 from by omega, List.take_succ_cons,
          List.take_left]
      rw [htake, hst]
      rw [pyStrip_cons_space '\n' (by decide) c]
      have hpre2 : pre ++ chunks ((k, t, c) :: it2 :: rest') =
          (pre ++ headerLine k t ++ c) ++ chunks (it2 :: rest') := by
        simp [chunks, List.append_assoc]
      have hlen2 : (pre ++ headerLine k t ++ c).length =
          pre.length + (headerLine k t).length + c.length := by
        rw [List.length_append, List.length_append]
      have hrest := ih (pre ++ headerLine k t ++ c)
        (fun x hx => h x (List.mem_cons_of_mem _ hx))
      rw [hlen2] at hrest
      rw [List.map_cons]
      refine congrArg₂ _ rfl ?_
      rw [← hrest, hpre2]
      conv_rhs => rw [hms]
      rfl

/-- `get_document_outline` rewritten without its intermediate bindings. -/
theorem getDocumentOutline_eq (text : Str) (h1 : pyStrip text ≠ []) :
    getDocumentOutline text =
      (if findHeaders (processCodeBlocks text).1 = [] then Forest.nil
       else
         addSiblings (buildAll (contentSlices (processCodeBlocks text).1
             (findHeaders (processCodeBlocks text).1))).groups
           (buildAll (contentSlices (processCodeBlocks text).1
             (findHeaders (processCodeBlocks text).1))).outline rootKey 1) := by
  unfold getDocumentOutline
  rw [if_neg h1]

/-- A chunked document with backtick-free texts and contents has no
backticks at all. -/
theorem chunks_no_backtick (items : List (Nat × Str × Str))
    (h : ∀ it ∈ items, '`' ∉ it.2.1 ∧ '`' ∉ it.2.2) : '`' ∉ chunks items := by
  induction items with
  | nil => simp [chunks]
  | cons it rest ih =>
    obtain ⟨k, t, c⟩ := it
    obtain ⟨ht, hc⟩ := h _ (List.mem_cons_self ..)
    intro hx
    rw [chunks, headerLine] at hx
    rcases List.mem_append.mp hx with hx1 | hx2
    · rcases List.mem_append.mp hx1 with hxa | hxb
      · exact absurd (List.eq_of_mem_replicate hxa) (by decide)
      · rcases List.mem_cons.mp hxb with he | hxc
        · exact absurd he (by decide)
        · rcases List.mem_append.mp hxc with hxd | hxe
          · exact ht hxd
          · rcases List.mem_cons.mp hxe with he | hxf
            · exact absurd he (by decide)
            · exact absurd hxf (by simp)
    · rcases List.mem_append.mp hx2 with hxa | hxb
      · exact hc hxa
      · exact ih (fun x hxm => h x (List.mem_cons_of_mem _ hxm)) hxb

/-- The whole `split_text` pipeline on a chunked document: protection leaves
the text unchanged, the scan finds one match per item, and the result is the
outline build over the items (with stripped contents), sibling-annotated and
flattened. -/
theorem splitText_chunks (items : List (Nat × Str × Str)) (hne : items ≠ [])
    (hg : ∀ it ∈ items, goodItem it)
    (hb : ∀ it ∈ items, '`' ∉ it.2.1 ∧ '`' ∉ it.2.2) :
    splitText (chunks items) =
      createSections
        (addSiblings
          (buildAll (items.map fun it => (it.1, it.2.1, pyStrip it.2.2))).groups
          (buildAll (items.map fun it => (it.1, it.2.1, pyStrip it.2.2))).outline
          rootKey 1)
        initialParents := by
  have hbt : '`' ∉ chunks items := chunks_no_backtick items hb
  have hpcb : processCodeBlocks (chunks items) = (chunks items, []) :=
    processCodeBlocks_of_none _ (fenceFind_eq_none _ hbt)
  have hhash : '#' ∈ chunks items := by
    cases items with
    | nil => exact absurd rfl hne
    | cons it rest =>
      obtain ⟨k, t, c⟩ := it
      obtain ⟨hk, -, -, -, -, -⟩ := hg _ (List.mem_cons_self ..)
      rw [chunks, headerLine]
      refine List.mem_append.mpr (Or.inl (List.mem_append.mpr (Or.inl ?_)))
      exact List.mem_replicate.mpr ⟨by omega, rfl⟩
  have hstrip : pyStrip (chunks items) ≠ [] :=
    pyStrip_ne_nil _ '#' (by decide) hhash
  have hfind : findHeaders (chunks items) = matchList 0 items :=
    scanHeaders_chunks items 0 hg
  have hmatchne : matchList 0 items ≠ [] := by
    cases items with
    | nil => exact absurd rfl hne
    | cons it rest =>
      obtain ⟨k, t, c⟩ := it
      rw [matchList]
      simp
  have hslices : contentSlices (chunks items) (matchList 0 items) =
      items.map (fun it => (it.1, it.2.1, pyStrip it.2.2)) := by
    have := contentSlices_chunks items [] hg
    rwa [List.nil_append, List.length_nil] at this
  have hout : getDocumentOutline (chunks items) =
      addSiblings
        (buildAll (items.map fun it => (it.1, it.2.1, pyStrip it.2.2))).groups
        (buildAll (items.map fun it => (it.1, it.2.1, pyStrip it.2.2))).outline
        rootKey 1 := by
    rw [getDocumentOutline_eq _ hstrip]
    rw [show (processCodeBlocks (chunks items)).1 = chunks items from by rw [hpcb]]
    rw [hfind, if_neg hmatchne, hslices]
  unfold splitText
  rw [if_neg hstrip, hout]

/-- Generalisation of `splitText_chunks` to any input text whose
code-protected form is a chunked document: the outline pipeline downstream of
`_process_code_blocks` only sees the processed text. -/
theorem splitText_of_processed (text : Str) (items : List (Nat × Str × Str))
    (hne : items ≠ []) (hg : ∀ it ∈ items, goodItem it)
    (hstrip : pyStrip text ≠ [])
    (hproc : (processCodeBlocks text).1 = chunks items) :
    splitText text =
      createSections
        (addSiblings
          (buildAll (items.map fun it => (it.1, it.2.1, pyStrip it.2.2))).groups
          (buildAll (items.map fun it => (it.1, it.2.1, pyStrip it.2.2))).outline
          rootKey 1)
        initialParents := by
  have hfind : findHeaders (chunks items) = matchList 0 items :=
    scanHeaders_chunks items 0 hg
  have hmatchne : matchList 0 items ≠ [] := by
    cases items with
    | nil => exact absurd rfl hne
    | cons it rest =>
      obtain ⟨k, t, c⟩ := it
      rw [matchList]
      simp
  have hslices : contentSlices (chunks items) (matchList 0 items) =
      items.map (fun it => (it.1, it.2.1, pyStrip it.2.2)) := by
    have := contentSlices_chunks items [] hg
    rwa [List.nil_append, List.length_nil] at this
  have hout : getDocumentOutline text =
      addSiblings
        (buildAll (items.map fun it => (it.1, it.2.1, pyStrip it.2.2))).groups
        (buildAll (items.map fun it => (it.1, it.2.1, pyStrip it.2.2))).outline
        rootKey 1 := by
    rw [getDocumentOutline_eq _ hstrip, hproc, hfind, if_neg hmatchne, hslices]
  unfold splitText
  rw [if_neg hstrip, hout]

/-- The initial parent mapping carries no present entries. -/
theorem presentParents_initial : presentParents initialParents = [] := rfl

/-- Setting one level in the initial parent mapping yields exactly that
entry once the absent levels are filtered out (whether the level updates one
of the four preset slots or is appended). -/
theorem presentParents_setParent_initial (j : Nat) (v : Str) :
    presentParents (setParent initialParents (hKey j) v) = [(hKey j, v)] := by
  unfold initialParents
  by_cases h1 : hKey 1 = hKey j
  · rw [setParent, if_pos h1, h1]
    rfl
  · rw [setParent, if_neg h1]
    by_cases h2 : hKey 2 = hKey j
    · rw [setParent, if_pos h2, h2]
      rfl
    · rw [setParent, if_neg h2]
      by_cases h3 : hKey 3 = hKey j
      · rw [setParent, if_pos h3, h3]
        rfl
      · rw [setParent, if_neg h3]
        by_cases h4 : hKey 4 = hKey j
        · rw [setParent, if_pos h4, h4]
          rfl
        · rw [setParent, if_neg h4]
          rfl

/-!
## Lemmas about code-block protection (first fence of a document)
-/

/-- `(l.drop n).head? = l.get? n`. -/
theorem head?_drop_eq_get? (l : Str) (n : Nat) : (l.drop n).head? = l.get? n := by
  induction l generalizing n with
  | nil => simp
  | cons c cs ih =>
    cases n with
    | zero => rfl
    | succ n' =>
      rw [List.drop_succ_cons, ih]
      rfl

/-- Digits sixteen and above render as an asterisk. -/
theorem digitChar_big (d : Nat) (h : 16 ≤ d) : Nat.digitChar d = '*' := by
  have h0 : d ≠ 0 := by omega
  have h1 : d ≠ 1 := by omega
  have h2 : d ≠ 2 := by omega
  have h3 : d ≠ 3 := by omega
  have h4 : d ≠ 4 := by omega
  have h5 : d ≠ 5 := by omega
  have h6 : d ≠ 6 := by omega
  have h7 : d ≠ 7 := by omega
  have h8 : d ≠ 8 := by omega
  have h9 : d ≠ 9 := by omega
  have h10 : d ≠ 10 := by omega
  have h11 : d ≠ 11 := by omega
  have h12 : d ≠ 12 := by omega
  have h13 : d ≠ 13 := by omega
  have h14 : d ≠ 14 := by omega
  have h15 : d ≠ 15 := by omega
  simp [Nat.digitChar, h0, h1, h2, h3, h4, h5, h6, h7, h8, h9, h10, h11, h12,
    h13, h14, h15]

/-- Every digit character is drawn from this fixed set. -/
theorem digitChar_mem (d : Nat) : Nat.digitChar d ∈ "0123456789abcdef*".data := by
  by_cases h : d < 16
  · interval_cases d <;> decide
  · rw [digitChar_big d (by omega)]; decide

theorem toDigitsCore_subset (fuel : Nat) : ∀ (n : Nat) (acc : List Char)
    (c : Char), c ∈ Nat.toDigitsCore 10 fuel n acc →
    c ∈ "0123456789abcdef*".data ∨ c ∈ acc := by
  induction fuel with
  | zero => exact fun n acc c hc => Or.inr hc
  | succ f ih =>
    intro n acc c hc
    rw [Nat.toDigitsCore] at hc
    by_cases h0 : n / 10 = 0
    · rw [if_pos h0] at hc
      rcases List.mem_cons.mp hc with rfl | hacc
      · exact Or.inl (digitChar_mem _)
      · exact Or.inr hacc
    · rw [if_neg h0] at hc
      rcases ih _ _ _ hc with hset | hacc
      · exact Or.inl hset
      · rcases List.mem_cons.mp hacc with rfl | hacc'
        · exact Or.inl (digitChar_mem _)
        · exact Or.inr hacc'

/-- Characters of a placeholder token: never a newline, hash or backtick. -/
theorem mem_commentToken (i : Nat) (c : Char) (hc : c ∈ commentToken i) :
    c ≠ '\n' ∧ c ≠ '#' ∧ c ≠ '`' := by
  unfold commentToken at hc
  rcases List.mem_append.mp hc with h1 | h2
  · rcases List.mem_append.mp h1 with h3 | h4
    · exact (by decide : ∀ x ∈ "\x7b\x7bCODE_COMMENT_".data,
        x ≠ '\n' ∧ x ≠ '#' ∧ x ≠ '`') c h3
    · rcases toDigitsCore_subset _ _ _ _ h4 with hset | hnil
      · exact (by decide : ∀ x ∈ "0123456789abcdef*".data,
          x ≠ '\n' ∧ x ≠ '#' ∧ x ≠ '`') c hset
      · exact absurd hnil (by simp)
  · exact (by decide : ∀ x ∈ "\x7d\x7d".data,
      x ≠ '\n' ∧ x ≠ '#' ∧ x ≠ '`') c h2

/-- Unfolding equation of `protectLines` on a protected line. -/
theorem protectLines_cons_hash (counter : Nat) (l : Str) (ls : List Str)
    (h : (pyLStrip l).head? = some '#') :
    protectLines counter (l :: ls) =
      (commentToken counter :: (protectLines (counter + 1) ls).1,
       (protectLines (counter + 1) ls).2.1,
       (commentToken counter, l) :: (protectLines (counter + 1) ls).2.2) := by
  rcases hX : protectLines (counter + 1) ls with ⟨ps, c', m⟩
  rw [protectLines, if_pos h, hX]

/-- Unfolding equation of `protectLines` on a kept line. -/
theorem protectLines_cons_keep (counter : Nat) (l : Str) (ls : List Str)
    (h : ¬ (pyLStrip l).head? = some '#') :
    protectLines counter (l :: ls) =
      (l :: (protectLines counter ls).1,
       (protectLines counter ls).2.1,
       (protectLines counter ls).2.2) := by
  rcases hX : protectLines counter ls with ⟨ps, c', m⟩
  rw [protectLines, if_neg h, hX]

/-- Every protected line is either a placeholder token or an unprotected
original line. -/
theorem protectLines_forall (ls : List Str) : ∀ (counter : Nat),
    ∀ l' ∈ (protectLines counter ls).1,
      (∃ n, l' = commentToken n) ∨
        (l' ∈ ls ∧ ¬ (pyLStrip l').head? = some '#') := by
  induction ls with
  | nil => intro counter l' h'; exact absurd h' (by simp [protectLines])
  | cons l ls' ih =>
    intro counter l' h'
    by_cases hl : (pyLStrip l).head? = some '#'
    · rw [protectLines_cons_hash counter l ls' hl] at h'
      rcases List.mem_cons.mp h' with rfl | h''
      · exact Or.inl ⟨counter, rfl⟩
      · rcases ih (counter + 1) l' h'' with htok | ⟨hmem, hkeep⟩
        · exact Or.inl htok
        · exact Or.inr ⟨List.mem_cons_of_mem _ hmem, hkeep⟩
    · rw [protectLines_cons_keep counter l ls' hl] at h'
      rcases List.mem_cons.mp h' with rfl | h''
      · exact Or.inr ⟨List.mem_cons_self .., hl⟩
      · rcases ih counter l' h'' with htok | ⟨hmem, hkeep⟩
        · exact Or.inl htok
        · exact Or.inr ⟨List.mem_cons_of_mem _ hmem, hkeep⟩

/-- A line whose protected form is requested at a `#`-starting index is
replaced by some placeholder token. -/
theorem protectLines_get_hash (ls : List Str) : ∀ (counter i : Nat) (l : Str),
    ls.get? i = some l → (pyLStrip l).head? = some '#' →
    ∃ n, (protectLines counter ls).1.get? i = some (commentToken n) := by
  induction ls with
  | nil => intro counter i l hget; exact absurd hget (by simp)
  | cons l0 ls' ih =>
    intro counter i l hget hhash
    cases i with
    | zero =>
      have hl0 : l0 = l := by simpa using hget
      subst hl0
      rw [protectLines_cons_hash counter l0 ls' hhash]
      exact ⟨counter, rfl⟩
    | succ j =>
      have hget' : ls'.get? j = some l := by simpa using hget
      by_cases hl : (pyLStrip l0).head? = some '#'
      · rw [protectLines_cons_hash counter l0 ls' hl]
        simpa using ih (counter + 1) j l hget' hhash
      · rw [protectLines_cons_keep counter l0 ls' hl]
        simpa using ih counter j l hget' hhash

/-- A line kept by `lstrip` reasoning: a line whose head is `#` has itself as
its `lstrip`. -/
theorem pyLStrip_eq_self_of_head (l : Str) (c : Char) (hh : l.head? = some c)
    (hc : isPySpace c = false) : pyLStrip l = l := by
  cases l with
  | nil => simp at hh
  | cons c0 cs =>
    have : c0 = c := by simpa using hh
    subst this
    unfold pyLStrip
    rw [List.dropWhile_cons, if_neg (by simp [hc])]

/-- No protected line starts with `#`, and protected lines of newline-free
lines stay newline-free. -/
theorem protectLines_heads (ls : List Str) (counter : Nat)
    (hls : ∀ l ∈ ls, '\n' ∉ l) :
    ∀ l' ∈ (protectLines counter ls).1, l'.head? ≠ some '#' ∧ '\n' ∉ l' := by
  intro l' h'
  rcases protectLines_forall ls counter l' h' with ⟨n, rfl⟩ | ⟨hmem, hkeep⟩
  · constructor
    · intro hh
      have : '#' ∈ commentToken n := by
        cases hct : commentToken n with
        | nil => rw [hct] at hh; simp at hh
        | cons c0 cs =>
          rw [hct] at hh
          have : c0 = '#' := by simpa using hh
          rw [this]
          exact List.mem_cons_self ..
      exact (mem_commentToken n '#' this).2.1 rfl
    · intro hn
      exact (mem_commentToken n '\n' hn).1 rfl
  · refine ⟨?_, hls l' hmem⟩
    intro hh
    exact hkeep (by rw [pyLStrip_eq_self_of_head l' '#' hh (by decide)]; exact hh)

/-- Lines that are either fully protected or `#`-free protect to `#`-free
lines. -/
theorem protectLines_no_hash (ls : List Str) (counter : Nat)
    (hopt : ∀ l ∈ ls, (pyLStrip l).head? = some '#' ∨ '#' ∉ l) :
    ∀ l' ∈ (protectLines counter ls).1, '#' ∉ l' := by
  intro l' h'
  rcases protectLines_forall ls counter l' h' with ⟨n, rfl⟩ | ⟨hmem, hkeep⟩
  · intro hc
    exact (mem_commentToken n '#' hc).2.1 rfl
  · rcases hopt l' hmem with hhash | hfree
    · exact absurd hhash hkeep
    · exact hfree

/-- The fields produced by `split("\n")` contain no newline. -/
theorem pySplitNl_no_nl (s : Str) : ∀ l ∈ pySplitNl s, '\n' ∉ l := by
  induction s with
  | nil =>
    intro l hl
    have : l = [] := by simpa [pySplitNl] using hl
    simp [this]
  | cons c cs ih =>
    intro l hl
    rw [pySplitNl] at hl
    by_cases hc : c = '\n'
    · rw [if_pos hc] at hl
      rcases List.mem_cons.mp hl with rfl | hl'
      · simp
      · exact ih l hl'
    · rw [if_neg hc] at hl
      cases hrest : pySplitNl cs with
      | nil =>
        rw [hrest] at hl
        have hlc : l = [c] := by simpa using hl
        subst hlc
        intro hmem
        have he : '\n' = c := by simpa using hmem
        exact hc he.symm
      | cons r rs =>
        rw [hrest] at hl
        rcases List.mem_cons.mp hl with rfl | hl'
        · intro hmem
          rcases List.mem_cons.mp hmem with he | hmem'
          · exact hc he.symm
          · exact ih r (by rw [hrest]; exact List.mem_cons_self ..) hmem'
        · exact ih l (by rw [hrest]; exact List.mem_cons_of_mem _ hl')

/-- Characters of a joined line list are newlines or characters of lines. -/
theorem mem_joinNl (ls : List Str) (c : Char) (hc : c ∈ joinNl ls) :
    c = '\n' ∨ ∃ l ∈ ls, c ∈ l := by
  induction ls with
  | nil => exact absurd hc (by simp [joinNl])
  | cons l ls' ih =>
    cases ls' with
    | nil => exact Or.inr ⟨l, List.mem_cons_self .., hc⟩
    | cons l2 ls'' =>
      rw [joinNl] at hc
      rcases List.mem_append.mp hc with h1 | h2
      · exact Or.inr ⟨l, List.mem_cons_self .., h1⟩
      · rcases List.mem_cons.mp h2 with rfl | h3
        · exact Or.inl rfl
        · rcases ih h3 with he | ⟨lx, hlx, hcx⟩
          · exact Or.inl he
          · exact Or.inr ⟨lx, List.mem_cons_of_mem _ hlx, hcx⟩

/-- `splitFirst` at the first newline of `lang ++ "\n" ++ rest`. -/
theorem splitFirst_nl (lang rest : Str) (h : '\n' ∉ lang) :
    splitFirst ['\n'] (lang ++ '\n' :: rest) = some (lang, rest) := by
  induction lang with
  | nil =>
    show splitFirst ['\n'] ('\n' :: rest) = some ([], rest)
    rw [splitFirst, if_pos (by simp [List.isPrefixOf])]
    rfl
  | cons c cs ih =>
    have hc : c ≠ '\n' := fun hc => h (by simp [hc])
    have hih := ih (fun hx => h (List.mem_cons_of_mem _ hx))
    show splitFirst ['\n'] (c :: (cs ++ '\n' :: rest)) = some (c :: cs, rest)
    rw [splitFirst]
    have hpre : (['\n'] : Str).isPrefixOf (c :: (cs ++ '\n' :: rest)) = false := by
      simp [List.isPrefixOf, hc]
      intro hx
      exact absurd hx.symm hc
    rw [hpre]
    simp only [Bool.false_eq_true, if_false]
    rw [hih]

/-- `splitFirst` at the first closing triple backtick following a
backtick-free body. -/
theorem splitFirst_triple (body rest : Str) (h : '`' ∉ body) :
    splitFirst "```".data (body ++ "```".data ++ rest) = some (body, rest) := by
  induction body with
  | nil =>
    show splitFirst "```".data ('`' :: '`' :: '`' :: rest) = some ([], rest)
    rw [splitFirst, if_pos (by simp [List.isPrefixOf])]
    rfl
  | cons c cs ih =>
    have hc : c ≠ '`' := fun hc => h (by simp [hc])
    have hih := ih (fun hx => h (List.mem_cons_of_mem _ hx))
    show splitFirst "```".data (c :: (cs ++ "```".data ++ rest)) =
      some (c :: cs, rest)
    rw [splitFirst]
    have hpre : "```".data.isPrefixOf (c :: (cs ++ "```".data ++ rest)) = false := by
      refine triple_not_prefixOf _ (fun hx => ?_)
      obtain ⟨t, ht⟩ := hx
      have : '`' = c := by
        have := congrArg List.head? ht
        simpa using this
      exact hc this.symm
    rw [hpre]
    simp only [Bool.false_eq_true, if_false]
    rw [hih]

/-- `fenceAt` on a well-formed fence: the language tag runs to the first
newline and the body to the first closing triple backtick. -/
theorem fenceAt_fence (lang body rest : Str) (hl : '\n' ∉ lang)
    (hb : '`' ∉ body) :
    fenceAt ("```".data ++ lang ++ '\n' :: (body ++ "```".data ++ rest)) =
      some (lang, body, rest) := by
  unfold fenceAt
  have hpre : "```".data.isPrefixOf
      ("```".data ++ lang ++ '\n' :: (body ++ "```".data ++ rest)) = true := by
    refine List.isPrefixOf_iff_prefix.mpr ⟨lang ++ '\n' :: (body ++ "```".data ++ rest), ?_⟩
    simp
  rw [hpre, if_pos rfl]
  have hdrop : ("```".data ++ lang ++ '\n' :: (body ++ "```".data ++ rest)).drop 3 =
      lang ++ '\n' :: (body ++ "```".data ++ rest) := rfl
  rw [hdrop]
  simp only [splitFirst_nl lang (body ++ "```".data ++ rest) hl,
    splitFirst_triple body rest hb]

/-- Leftmost fence match of a document with a backtick-free prefix followed by
a well-formed fence. -/
theorem fenceFind_fence (p lang body rest : Str) (hp : '`' ∉ p)
    (hl : '\n' ∉ lang) (hb : '`' ∉ body) :
    fenceFind (p ++ "```".data ++ lang ++ '\n' :: (body ++ "```".data ++ rest)) =
      some (p, lang, body, rest) := by
  induction p with
  | nil =>
    have hA := fenceAt_fence lang body rest hl hb
    show fenceFind ('`' :: ('`' :: '`' :: (lang ++ '\n' :: (body ++ "```".data ++ rest)))) = _
    rw [fenceFind]
    rw [show fenceAt ('`' :: ('`' :: '`' :: (lang ++ '\n' :: (body ++ "```".data ++ rest)))) =
      some (lang, body, rest) from hA]
  | cons c cs ih =>
    have hc : c ≠ '`' := fun hc => hp (by simp [hc])
    have hih := ih (fun hx => hp (List.mem_cons_of_mem _ hx))
    show fenceFind (c :: (cs ++ "```".data ++ lang ++ '\n' :: (body ++ "```".data ++ rest))) = _
    rw [fenceFind, fenceAt_eq_none_of_head _ (by simp [hc]), hih]

/-- `processAux` is the identity once no fence matches, at any fuel. -/
theorem processAux_of_none (fuel counter : Nat) (s : Str)
    (h : fenceFind s = none) : processAux fuel counter s = (s, counter, []) := by
  cases fuel with
  | zero => rfl
  | succ f => rw [processAux, h]

/-- `_process_code_blocks` on a document with exactly one (leftmost,
well-formed) fence: the fence body's lines are protected and rejoined, the
language tag and the newline after the opening backticks are dropped, and the
replacement map records the protected lines. -/
theorem processCodeBlocks_fence (p lang body rest : Str) (hp : '`' ∉ p)
    (hl : '\n' ∉ lang) (hb : '`' ∉ body) (hr : '`' ∉ rest) :
    processCodeBlocks (p ++ "```".data ++ lang ++ '\n' :: (body ++ "```".data ++ rest)) =
      (p ++ "```".data ++ joinNl (protectLines 0 (pySplitNl body)).1 ++ "```".data ++ rest,
       (protectLines 0 (pySplitNl body)).2.2) := by
  have hfind := fenceFind_fence p lang body rest hp hl hb
  have hrest : fenceFind rest = none := fenceFind_eq_none rest hr
  rcases hP : protectLines 0 (pySplitNl body) with ⟨plines, cmid, m1⟩
  have hnone := processAux_of_none
    ((p ++ "```".data ++ lang ++ '\n' :: (body ++ "```".data ++ rest)).length)
    cmid rest hrest
  unfold processCodeBlocks
  simp only [processAux, hfind, hP, hnone, List.append_nil]

/-- In the rejoined protected body, a hash character never stands at the
start of the text nor right after a newline: protected lines start with a
placeholder brace or a non-hash character, and placeholder characters are
never hashes or newlines. -/
theorem joinNl_no_hash_at_linestart (ls : List Str)
    (h : ∀ l ∈ ls, l.head? ≠ some '#' ∧ '\n' ∉ l) :
    (joinNl ls).head? ≠ some '#' ∧
      ∀ jp, (joinNl ls).get? jp = some '\n' → (joinNl ls).get? (jp + 1) ≠ some '#' := by
  induction ls with
  | nil => exact ⟨by simp [joinNl], fun jp hjp => by simp [joinNl] at hjp⟩
  | cons l ls' ih =>
    cases ls' with
    | nil =>
      refine ⟨(h l (List.mem_cons_self ..)).1, fun jp hjp => ?_⟩
      exact absurd (List.get?_mem hjp) (h l (List.mem_cons_self ..)).2
    | cons l2 ls'' =>
      have hl := h l (List.mem_cons_self ..)
      have hih := ih (fun x hx => h x (List.mem_cons_of_mem _ hx))
      have hJ : joinNl (l :: l2 :: ls'') = l ++ '\n' :: joinNl (l2 :: ls'') := rfl
      constructor
      · rw [hJ]
        cases hl0 : l with
        | nil => simp
        | cons c0 cs0 =>
          rw [hl0] at hl
          simpa using hl.1
      · intro jp hjp
        rw [hJ] at hjp ⊢
        by_cases hlt : jp < l.length
        · rw [List.get?_append hlt] at hjp
          exact absurd (List.get?_mem hjp) hl.2
        · push_neg at hlt
          rw [List.get?_append_right hlt] at hjp
          rw [List.get?_append_right (by omega)]
          rcases Nat.lt_or_ge jp l.length.succ with hcase | hcase
          · have hidx : jp + 1 - l.length = 1 := by omega
            rw [hidx]
            have h0 : ('\n' :: joinNl (l2 :: ls'')).get? 1 =
                (joinNl (l2 :: ls'')).get? 0 := rfl
            rw [h0]
            have h1 := head?_drop_eq_get? (joinNl (l2 :: ls'')) 0
            rw [List.drop_zero] at h1
            rw [← h1]
            exact hih.1
          · have hi1 : jp - l.length = (jp - l.length - 1) + 1 := by omega
            rw [hi1] at hjp
            have hjp' : (joinNl (l2 :: ls'')).get? (jp - l.length - 1) = some '\n' := hjp
            have hi2 : jp + 1 - l.length = (jp - l.length - 1 + 1) + 1 := by omega
            rw [hi2]
            have hres := hih.2 _ hjp'
            exact hres

set_option maxRecDepth 40000

/-- Whether a line contains three consecutive backticks. -/
def hasTripleBacktick : Str → Bool
  | [] => false
  | c :: cs => "```".data.isPrefixOf (c :: cs) || hasTripleBacktick cs

/-- Modelled from the spec for comparison with the code (refinement): the
claim's notion of a fenced code block — "a region opened by a triple-backtick
line, optionally with a language tag, and closed by the next triple-backtick".
Given the document's lines and whether the scan is currently inside a fence,
mark each line `true` when it lies strictly inside such a region: a line
starting with three backticks opens a region, and the next line containing
three backticks closes it (neither delimiter line is strictly inside). -/
def specFenceMark : List Str → Bool → List Bool
  | [], _ => []
  | l :: ls, false => false :: specFenceMark ls ("```".data.isPrefixOf l)
  | l :: ls, true =>
    if hasTripleBacktick l then false :: specFenceMark ls false
    else true :: specFenceMark ls true

set_option maxRecDepth 40000

/-- C3: for the nested input `# Main\nC\n## Sub\nC2\n### Deep\nC3\n## Sub2\nC4`,
`split_text` returns exactly four sections in the order Main (level 1),
Sub (level 2), Deep (level 3), Sub2 (level 2); Deep's `metadata.parents` is
`{"h1": "Main", "h2": "Sub"}`; Sub's `metadata.siblings` is `["Sub2"]` and
Sub2's is `["Sub"]` (both with parents `{"h1": "Main"}`). -/
theorem c3_nested_input :
    splitText "# Main\nC\n## Sub\nC2\n### Deep\nC3\n## Sub2\nC4".data =
      [⟨"Main".data, "C".data, 1, ⟨[], []⟩⟩,
       ⟨"Sub".data, "C2".data, 2, ⟨[(hKey 1, "Main".data)], ["Sub2".data]⟩⟩,
       ⟨"Deep".data, "C3".data, 3, ⟨[(hKey 1, "Main".data), (hKey 2, "Sub".data)], []⟩⟩,
       ⟨"Sub2".data, "C4".data, 2, ⟨[(hKey 1, "Main".data)], ["Sub".data]⟩⟩] := by
  decide

/-- C7: a text with zero header matches produces an empty section list from
`split_text` and an empty outline from `get_document_outline`; no
content-related failure exists (both functions are total in this model: every
input reaches one of the `return` statements of the source). -/
theorem c7_zero_headers_empty (t : Str)
    (h : findHeaders (processCodeBlocks t).1 = []) :
    splitText t = [] ∧ getDocumentOutline t = Forest.nil := by
  have hout : getDocumentOutline t = Forest.nil := by
    unfold getDocumentOutline
    by_cases hs : pyStrip t = []
    · simp [hs]
    · simp [hs, h]
  refine ⟨?_, hout⟩
  unfold splitText
  by_cases hs : pyStrip t = []
  · simp [hs]
  · simp [hs, hout, createSections]

/-- C7 witness: the empty string and a whitespace-only string have zero
header matches, and both yield an empty section list and an empty outline. -/
theorem c7_zero_headers_empty_witness :
    (splitText "   ".data = [] ∧ getDocumentOutline "   ".data = Forest.nil) ∧
    (splitText [] = [] ∧ getDocumentOutline [] = Forest.nil) :=
  ⟨c7_zero_headers_empty "   ".data (by decide),
   c7_zero_headers_empty [] (by decide)⟩

/-- C1 counterexample: in `a```b\n```\n# X\n```\n` the line `# X` (line index
2) lies strictly inside a fenced code block in the claim's sense (the region
opened by the triple-backtick line at index 1 and closed by the next triple
backtick, at index 3), and its first non-whitespace character is `#`.  Yet
the stray inline backticks on line 0 shift the regex's non-greedy pairing
(the match consumes only ```` ```b\n``` ````), the line survives code-block
protection, a header match starts at its position (offset 8 of the processed
text), and `split_text` returns a Section whose header `X` is parsed from
that line — so the line is detected as a header, refuting the claim. -/
theorem c1_counterexample :
    specFenceMark (pySplitNl "a```b\n```\n# X\n```\n".data) false =
        [false, false, true, false, false] ∧
    (pySplitNl "a```b\n```\n# X\n```\n".data).get? 2 = some "# X".data ∧
    (processCodeBlocks "a```b\n```\n# X\n```\n".data).1 =
        "a``````\n# X\n```\n".data ∧
    findHeaders (processCodeBlocks "a```b\n```\n# X\n```\n".data).1 =
        [⟨8, 1, "X".data, 11⟩] ∧
    splitText "a```b\n```\n# X\n```\n".data =
        [⟨"X".data, "```".data, 1, ⟨[], []⟩⟩] := by
  refine ⟨by decide, by decide, by decide, by decide, by decide⟩

/-- C1 (amended): the fenced region the code actually protects is the one
delimited by the regex — the leftmost triple backtick (not necessarily on a
line of its own), the first newline after it, and the first closing triple
backtick after that newline.  For a document whose first backticks open such
a well-formed terminated fence (backtick-free prefix, newline-free language
tag, backtick-free body and tail), `_process_code_blocks` replaces the fence
by `"```" + "\n".join(protected lines) + "```"`, and no header match of the
header regex on the processed text starts inside that replaced region: every
line of the fence body whose first non-whitespace character is `#` has been
replaced by a placeholder, and no remaining character of the region is a `#`
at a line start.  Hence no Section or outline node can take its header from
inside the (regex-delimited) fence. -/
theorem c1_amended_fence_region_protected (p lang body rest : Str)
    (hp : '`' ∉ p) (hl : '\n' ∉ lang) (hb : '`' ∉ body) (hr : '`' ∉ rest) :
    (processCodeBlocks (p ++ "```".data ++ lang ++ '\n' :: (body ++ "```".data ++ rest))).1 =
      p ++ "```".data ++ joinNl (protectLines 0 (pySplitNl body)).1 ++ "```".data ++ rest ∧
    ∀ m ∈ findHeaders (p ++ "```".data ++ joinNl (protectLines 0 (pySplitNl body)).1 ++
        "```".data ++ rest),
      m.start < p.length ∨
        p.length + 6 + (joinNl (protectLines 0 (pySplitNl body)).1).length ≤ m.start := by
  refine ⟨congrArg Prod.fst (processCodeBlocks_fence p lang body rest hp hl hb hr), ?_⟩
  set J := joinNl (protectLines 0 (pySplitNl body)).1 with hJ
  have h3 : ("```".data : Str).length = 3 := rfl
  have hbacks : ∀ k, k < 3 → ("```".data : Str).get? k = some '`' := by decide
  have hlines : ∀ l' ∈ (protectLines 0 (pySplitNl body)).1,
      l'.head? ≠ some '#' ∧ '\n' ∉ l' :=
    protectLines_heads (pySplitNl body) 0 (pySplitNl_no_nl body)
  have hJfacts := joinNl_no_hash_at_linestart _ hlines
  rw [← hJ] at hJfacts
  have hRlen : ("```".data ++ (J ++ "```".data)).length = 6 + J.length := by
    rw [List.length_append, List.length_append, h3]
    omega
  have hXR : ("```".data ++ (J ++ "```".data)) ++ rest =
      "```".data ++ (J ++ ("```".data ++ rest)) := by
    simp [List.append_assoc]
  have hgetR : ∀ i, i < 6 + J.length →
      (p ++ ("```".data ++ (J ++ ("```".data ++ rest)))).get? (p.length + i) =
        ("```".data ++ (J ++ "```".data)).get? i := by
    intro i hi
    rw [List.get?_append_right (show p.length ≤ p.length + i by omega),
      Nat.add_sub_cancel_left, ← hXR,
      List.get?_append (show i < ("```".data ++ (J ++ "```".data)).length by omega)]
  intro m hm
  by_contra hcon
  push_neg at hcon
  obtain ⟨hge, hlt⟩ := hcon
  simp only [List.append_assoc] at hm
  obtain ⟨-, hmatch, hdisj⟩ :=
    scanHeaders_sound (p ++ ("```".data ++ (J ++ ("```".data ++ rest)))) true 0 0 m hm
  rw [Nat.sub_zero] at hmatch
  have hhead := matchHeaderAt_head _ _ hmatch
  rw [head?_drop_eq_get?] at hhead
  have hms : m.start = p.length + (m.start - p.length) := by omega
  have hi : m.start - p.length < 6 + J.length := by omega
  have hofs : (p ++ ("```".data ++ (J ++ ("```".data ++ rest)))).get?
      (p.length + (m.start - p.length)) = some '#' := by
    rw [← hms]; exact hhead
  rw [hgetR _ hi] at hofs
  rcases Nat.lt_or_ge (m.start - p.length) 3 with h3a | h3b
  · rw [List.get?_append (by omega)] at hofs
    rw [hbacks _ h3a] at hofs
    exact absurd hofs (by decide)
  · rcases Nat.lt_or_ge (m.start - p.length) (3 + J.length) with h3c | h3d
    · have hJi : ("```".data ++ (J ++ "```".data)).get? (m.start - p.length) =
          J.get? (m.start - p.length - 3) := by
        rw [List.get?_append_right (by omega), h3]
        exact List.get?_append (by omega)
      rw [hJi] at hofs
      rcases Nat.lt_or_ge 3 (m.start - p.length) with h4 | h4
      · have hprev : (p ++ ("```".data ++ (J ++ ("```".data ++ rest)))).get?
            (m.start - 1) = some '\n' := by
          rcases hdisj with ⟨h0, -, -⟩ | ⟨-, hnl⟩
          · exact absurd h0 (by omega)
          · simpa using hnl
        have hms1 : m.start - 1 = p.length + (m.start - p.length - 1) := by omega
        rw [hms1, hgetR _ (by omega)] at hprev
        have hJprev : ("```".data ++ (J ++ "```".data)).get?
            (m.start - p.length - 1) = J.get? (m.start - p.length - 1 - 3) := by
          rw [List.get?_append_right (by omega), h3]
          exact List.get?_append (by omega)
        rw [hJprev] at hprev
        have hstep := hJfacts.2 _ hprev
        have hidx : m.start - p.length - 1 - 3 + 1 = m.start - p.length - 3 := by omega
        rw [hidx] at hstep
        exact hstep hofs
      · have hi3 : m.start - p.length - 3 = 0 := by omega
        rw [hi3] at hofs
        have h1 := head?_drop_eq_get? J 0
        rw [List.drop_zero] at h1
        rw [← h1] at hofs
        exact hJfacts.1 hofs
    · have hJi : ("```".data ++ (J ++ "```".data)).get? (m.start - p.length) =
          ("```".data : Str).get? (m.start - p.length - 3 - J.length) := by
        rw [List.get?_append_right (by omega), h3,
          List.get?_append_right (by omega)]
      rw [hJi] at hofs
      rw [hbacks _ (by omega)] at hofs
      exact absurd hofs (by decide)

/-- C1 witness: in `x\n```py\n# hidden```\n# Real\nok\n` the fence body line
`# hidden` is protected, and every header match of the processed text starts
before the fence (impossible here, the prefix has no header) or after the
replaced region — concretely only `# Real` in the tail is matched. -/
theorem c1_amended_fence_region_protected_witness :
    (processCodeBlocks ("x\n".data ++ "```".data ++ "py".data ++
        '\n' :: ("# hidden".data ++ "```".data ++ "\n# Real\nok\n".data))).1 =
      "x\n".data ++ "```".data ++ joinNl (protectLines 0 (pySplitNl "# hidden".data)).1 ++
        "```".data ++ "\n# Real\nok\n".data ∧
    ∀ m ∈ findHeaders ("x\n".data ++ "```".data ++
        joinNl (protectLines 0 (pySplitNl "# hidden".data)).1 ++
        "```".data ++ "\n# Real\nok\n".data),
      m.start < "x\n".data.length ∨
        "x\n".data.length + 6 +
          (joinNl (protectLines 0 (pySplitNl "# hidden".data)).1).length ≤ m.start :=
  c1_amended_fence_region_protected "x\n".data "py".data "# hidden".data
    "\n# Real\nok\n".data (by decide) (by decide) (by decide) (by decide)

/-- C2 counterexample: `"```c\n# X\n"` contains an unterminated fence (the
opening triple backtick has no later closing one).  `split_text` does not
raise, but the fence's content is not protected: the fence regex finds no
match, `_process_code_blocks` returns the text unchanged, and the line
`# X` after the opening fence is detected as a header (the returned Section
has header `X`), contradicting the claim that it is never detected. -/
theorem c2_counterexample :
    (processCodeBlocks "```c\n# X\n".data).1 = "```c\n# X\n".data ∧
    (processCodeBlocks "```c\n# X\n".data).2 = [] ∧
    splitText "```c\n# X\n".data = [⟨"X".data, [], 1, ⟨[], []⟩⟩] := by
  refine ⟨by decide, by decide, by decide⟩

/-- C2 (amended): `split_text` does not raise on an unterminated fence (the
whole pipeline is a total function), but the fence's content is NOT
protected: when the document's only backticks are the unterminated opening
triple backtick, the fence regex finds no match, `_process_code_blocks`
returns the text unchanged with an empty replacement map, and header
detection on the protected text coincides with header detection on the raw
text — a line beginning with `#` after the opening fence is detected as a
header exactly as in plain text (see the counterexample for a concrete
detection). -/
theorem c2_amended_unterminated_not_protected (p q : Str)
    (hp : '`' ∉ p) (hq : '`' ∉ q) :
    (processCodeBlocks (p ++ "```".data ++ q)).1 = p ++ "```".data ++ q ∧
    (processCodeBlocks (p ++ "```".data ++ q)).2 = [] ∧
    findHeaders (processCodeBlocks (p ++ "```".data ++ q)).1 =
      findHeaders (p ++ "```".data ++ q) := by
  have h := processCodeBlocks_of_none _ (fenceFind_unterminated p q hp hq)
  refine ⟨by rw [h], by rw [h], by rw [h]⟩

/-- C2 witness: the unterminated-fence document `"```c\n# X\n"` passes
through `_process_code_blocks` unchanged. -/
theorem c2_amended_unterminated_not_protected_witness :
    (processCodeBlocks ([] ++ "```".data ++ "c\n# X\n".data)).1 =
        [] ++ "```".data ++ "c\n# X\n".data ∧
    (processCodeBlocks ([] ++ "```".data ++ "c\n# X\n".data)).2 = [] ∧
    findHeaders (processCodeBlocks ([] ++ "```".data ++ "c\n# X\n".data)).1 =
      findHeaders ([] ++ "```".data ++ "c\n# X\n".data) :=
  c2_amended_unterminated_not_protected [] "c\n# X\n".data
    (by decide) (by decide)

/-- C4 counterexample: the claim requires the header's whitespace and text to
lie on the same line as the `#` run, and says a lone `#` line whose text
would come only from the following line yields no header.  But `\s` matches
newlines: on `"#\nTitle"` (no code blocks, so the protected text is the
input itself) the pattern matches across the newline — one header match at
position 0 spanning the whole string — and `split_text` returns a Section
with header `Title` and level 1. -/
theorem c4_counterexample :
    (processCodeBlocks "#\nTitle".data).1 = "#\nTitle".data ∧
    findHeaders "#\nTitle".data = [⟨0, 1, "Title".data, 7⟩] ∧
    splitText "#\nTitle".data = [⟨"Title".data, [], 1, ⟨[], []⟩⟩] := by
  refine ⟨by decide, by decide, by decide⟩

/-- C4 (amended): a position of the code-protected text yields a header
match starting there only if its `#` run is immediately followed by a
Python-whitespace character: when the character after the run is absent or
not whitespace (as in `#Title`), no header match starts at that position.
(The whitespace may be a newline — `\s` matches `\n` — so the header text
may come from the following line, as the counterexample records.) -/
theorem c4_amended_hash_needs_whitespace (t : Str) (i : Nat)
    (_h1 : (t.drop i).head? = some '#')
    (h2 : ((t.drop i).dropWhile (fun c => decide (c = '#'))).head?.all
        (fun c => ! isPySpace c) = true)
    (m : HeaderMatch) (hm : m ∈ findHeaders t) :
    m.start ≠ i := by
  intro hi
  obtain ⟨-, h4, -⟩ := scanHeaders_sound t true 0 0 m hm
  rw [Nat.sub_zero, hi] at h4
  rw [matchHeaderAt_eq_none_of_no_space (t.drop i) h2] at h4
  exact Option.noConfusion h4

/-- C4 witness: in `"x\n#Title\n# Ok\nbody"` the only header match is
`# Ok` at offset 9; the `#Title` line at offset 2 starts no match. -/
theorem c4_amended_hash_needs_whitespace_witness :
    (⟨9, 1, "Ok".data, 13⟩ : HeaderMatch).start ≠ 2 :=
  c4_amended_hash_needs_whitespace "x\n#Title\n# Ok\nbody".data 2
    (by decide) (by decide) ⟨9, 1, "Ok".data, 13⟩ (by decide)

/-- C5 counterexample: in `"# A\n### D\n# A\nx"` the level-1 header `A` is
immediately followed by the level-3 header `D` (levels N and N+2 with N=1,
as the header matches show).  The claim asserts the deeper Section's parents
map contains `h1 ↦ A`; but the later duplicate top-level `# A` overwrites the
first `A` node in the outline, destroying its subtree, and `split_text`
returns a single Section `A` — there is no Section for `D` at all. -/
theorem c5_counterexample :
    findHeaders "# A\n### D\n# A\nx".data =
        [⟨0, 1, "A".data, 3⟩, ⟨4, 3, "D".data, 9⟩, ⟨10, 1, "A".data, 13⟩] ∧
    splitText "# A\n### D\n# A\nx".data = [⟨"A".data, "x".data, 1, ⟨[], []⟩⟩] := by
  refine ⟨by decide, by decide⟩

/-- C5 (amended): in a document consisting of a level-N header immediately
followed by a level-N+2 header (well-formed texts and contents, no
backticks), the deeper header nests directly under the shallower one: the
output has exactly the two Sections (no synthetic intermediate Section), and
the deeper Section's parents map is exactly `{h N ↦ shallower}` — it
contains the `h N` key (holding the raw outline key, as the source stores
it) and no `h (N+1)` key; the section headers themselves pass through the
`clean_section_header` validator.  (The unrestricted claim fails when a
later duplicate of an enclosing header erases the deeper node's subtree, as
the counterexample shows.) -/
theorem c5_amended_skip_level_nests_directly (N : Nat) (tA cA tD cD : Str)
    (hgA : goodItem (N, tA, cA)) (hgD : goodItem (N + 2, tD, cD))
    (hbA : '`' ∉ tA) (hbcA : '`' ∉ cA) (hbD : '`' ∉ tD) (hbcD : '`' ∉ cD) :
    splitText (chunks [(N, tA, cA), (N + 2, tD, cD)]) =
      [⟨cleanSectionHeader tA, pyStrip cA, N, ⟨[], []⟩⟩,
       ⟨cleanSectionHeader tD, pyStrip cD, N + 2, ⟨[(hKey N, tA)], []⟩⟩] := by
  have hle : ¬ (N + 2 ≤ N) := by omega
  rw [splitText_chunks _ (by simp)
    (by
      intro it hit
      simp only [List.mem_cons, List.not_mem_nil, or_false] at hit
      rcases hit with rfl | rfl
      · exact hgA
      · exact hgD)
    (by
      intro it hit
      simp only [List.mem_cons, List.not_mem_nil, or_false] at hit
      rcases hit with rfl | rfl
      · exact ⟨hbA, hbcA⟩
      · exact ⟨hbD, hbcD⟩)]
  simp [buildAll, buildStep, initState, popStacks, addToGroup, Forest.insert,
    Forest.insertAtPath, Forest.modifyChildren, addSiblings, lookupGroup,
    createSections, presentParents_initial, presentParents_setParent_initial,
    hle]

/-- C5 witness: the instance `# A` followed by `### D`. -/
theorem c5_amended_skip_level_nests_directly_witness :
    splitText (chunks [(1, "A".data, "a\n".data), (1 + 2, "D".data, "d\n".data)]) =
      [⟨cleanSectionHeader "A".data, pyStrip "a\n".data, 1, ⟨[], []⟩⟩,
       ⟨cleanSectionHeader "D".data, pyStrip "d\n".data, 1 + 2,
        ⟨[(hKey 1, "A".data)], []⟩⟩] :=
  c5_amended_skip_level_nests_directly 1 "A".data "a\n".data "D".data "d\n".data
    (by decide) (by decide) (by decide) (by decide) (by decide) (by decide)

/-- C6 counterexample: in `"# P\n## A\n## B\n# P\n### A"` the headers `## A`
and `## B` have distinct texts, the same level 2 and the same immediate
parent `P`, so the claim requires `A` in `B`'s siblings and `B` in `A`'s.
But the second `# P` overwrites the first `P` node (losing `A` and `B`) and
the final `### A` creates a level-3 node under the new `P`: the output has no
Section for `B` at all, and the only Section named `A` has empty siblings —
sibling lists are not mutual. -/
theorem c6_counterexample :
    findHeaders "# P\n## A\n## B\n# P\n### A".data =
        [⟨0, 1, "P".data, 3⟩, ⟨4, 2, "A".data, 8⟩, ⟨9, 2, "B".data, 13⟩,
         ⟨14, 1, "P".data, 17⟩, ⟨18, 3, "A".data, 23⟩] ∧
    splitText "# P\n## A\n## B\n# P\n### A".data =
        [⟨"P".data, [], 1, ⟨[], []⟩⟩,
         ⟨"A".data, [], 3, ⟨[(hKey 1, "P".data)], []⟩⟩] := by
  refine ⟨by decide, by decide⟩

/-- C6 (amended): sibling lists are symmetric and mutual for two distinct
same-level headers sharing the same immediate parent whose nodes survive to
the final outline — both under a real parent header and under the virtual
root: in a document with one parent header and two distinct same-level child
headers under it, and likewise in a document of just two distinct top-level
headers, each header's text appears in the other's siblings list, in
document order, excluding self (section headers pass through the
`clean_section_header` validator; sibling entries hold the raw texts).
(The unrestricted claim fails when duplicate header texts overwrite nodes,
as the counterexample shows.) -/
theorem c6_amended_siblings_mutual (lp lc : Nat) (tP cP tA cA tB cB : Str)
    (hlt : lp < lc) (hAB : tA ≠ tB)
    (hgP : goodItem (lp, tP, cP)) (hgA : goodItem (lc, tA, cA))
    (hgB : goodItem (lc, tB, cB))
    (hb1 : '`' ∉ tP) (hb2 : '`' ∉ cP) (hb3 : '`' ∉ tA) (hb4 : '`' ∉ cA)
    (hb5 : '`' ∉ tB) (hb6 : '`' ∉ cB) :
    splitText (chunks [(lp, tP, cP), (lc, tA, cA), (lc, tB, cB)]) =
      [⟨cleanSectionHeader tP, pyStrip cP, lp, ⟨[], []⟩⟩,
       ⟨cleanSectionHeader tA, pyStrip cA, lc, ⟨[(hKey lp, tP)], [tB]⟩⟩,
       ⟨cleanSectionHeader tB, pyStrip cB, lc, ⟨[(hKey lp, tP)], [tA]⟩⟩] ∧
    splitText (chunks [(lc, tA, cA), (lc, tB, cB)]) =
      [⟨cleanSectionHeader tA, pyStrip cA, lc, ⟨[], [tB]⟩⟩,
       ⟨cleanSectionHeader tB, pyStrip cB, lc, ⟨[], [tA]⟩⟩] := by
  have hle1 : ¬ (lc ≤ lp) := by omega
  have hne1 : ¬ (lp = lc) := by omega
  have hne2 : ¬ (lc = lp) := by omega
  have hBA : ¬ (tB = tA) := fun h => hAB h.symm
  have hAB' : ¬ (tA = tB) := hAB
  constructor
  · rw [splitText_chunks _ (by simp)
      (by
        intro it hit
        simp only [List.mem_cons, List.not_mem_nil, or_false] at hit
        rcases hit with rfl | rfl | rfl
        · exact hgP
        · exact hgA
        · exact hgB)
      (by
        intro it hit
        simp only [List.mem_cons, List.not_mem_nil, or_false] at hit
        rcases hit with rfl | rfl | rfl
        · exact ⟨hb1, hb2⟩
        · exact ⟨hb3, hb4⟩
        · exact ⟨hb5, hb6⟩)]
    simp [buildAll, buildStep, initState, popStacks, addToGroup, Forest.insert,
      Forest.insertAtPath, Forest.modifyChildren, addSiblings, lookupGroup,
      createSections, presentParents_initial, presentParents_setParent_initial,
      hle1, hne1, hne2, hAB', hBA]
  · rw [splitText_chunks _ (by simp)
      (by
        intro it hit
        simp only [List.mem_cons, List.not_mem_nil, or_false] at hit
        rcases hit with rfl | rfl
        · exact hgA
        · exact hgB)
      (by
        intro it hit
        simp only [List.mem_cons, List.not_mem_nil, or_false] at hit
        rcases hit with rfl | rfl
        · exact ⟨hb3, hb4⟩
        · exact ⟨hb5, hb6⟩)]
    simp [buildAll, buildStep, initState, popStacks, addToGroup, Forest.insert,
      Forest.insertAtPath, Forest.modifyChildren, addSiblings, lookupGroup,
      createSections, presentParents_initial, presentParents_setParent_initial,
      hAB', hBA]

/-- C6 witness: `# P` with children `## A` and `## B`, and the root-level
pair `## A`, `## B` on its own — each sibling pair lists the other. -/
theorem c6_amended_siblings_mutual_witness :
    (splitText (chunks [(1, "P".data, "p\n".data), (2, "A".data, "a\n".data),
        (2, "B".data, "b\n".data)]) =
      [⟨cleanSectionHeader "P".data, pyStrip "p\n".data, 1, ⟨[], []⟩⟩,
       ⟨cleanSectionHeader "A".data, pyStrip "a\n".data, 2,
        ⟨[(hKey 1, "P".data)], ["B".data]⟩⟩,
       ⟨cleanSectionHeader "B".data, pyStrip "b\n".data, 2,
        ⟨[(hKey 1, "P".data)], ["A".data]⟩⟩]) ∧
    splitText (chunks [(2, "A".data, "a\n".data), (2, "B".data, "b\n".data)]) =
      [⟨cleanSectionHeader "A".data, pyStrip "a\n".data, 2, ⟨[], ["B".data]⟩⟩,
       ⟨cleanSectionHeader "B".data, pyStrip "b\n".data, 2, ⟨[], ["A".data]⟩⟩] :=
  c6_amended_siblings_mutual 1 2 "P".data "p\n".data "A".data "a\n".data
    "B".data "b\n".data (by decide) (by decide) (by decide) (by decide)
    (by decide) (by decide) (by decide) (by decide) (by decide) (by decide)
    (by decide)

/-- C8 counterexample: `"# P\n## A\nc1\n# P\n## A\nc2\n# P\nz"` contains two
sibling headers `## A` at the same level 2 under the same immediate parent
text `P` (one under each `# P` occurrence).  The claim requires the returned
outline/section list to contain a single node `A` carrying the later
content `c2`; instead the final `# P` overwrites the parent node once more
and the output contains no node for `A` at all — only the Section `P` with
content `z`. -/
theorem c8_counterexample :
    findHeaders "# P\n## A\nc1\n# P\n## A\nc2\n# P\nz".data =
        [⟨0, 1, "P".data, 3⟩, ⟨4, 2, "A".data, 8⟩, ⟨12, 1, "P".data, 15⟩,
         ⟨16, 2, "A".data, 20⟩, ⟨24, 1, "P".data, 27⟩] ∧
    splitText "# P\n## A\nc1\n# P\n## A\nc2\n# P\nz".data =
        [⟨"P".data, "z".data, 1, ⟨[], []⟩⟩] := by
  refine ⟨by decide, by decide⟩

/-- C8 (amended): when the two identically-named sibling headers sit under
the same surviving parent node (well-formed, no backticks, parent text not
duplicated), the later occurrence overwrites the earlier one in the parent's
children mapping: the output contains a single Section for that header text
(cleaned by the `clean_section_header` validator) under that parent, in the
earlier occurrence's position, carrying the later occurrence's content.
(The unrestricted claim fails when a later duplicate of the parent text
erases the node altogether, as the counterexample shows.) -/
theorem c8_amended_duplicate_overwrites (lp lc : Nat) (tP cP tA c1 c2 : Str)
    (hlt : lp < lc)
    (hgP : goodItem (lp, tP, cP)) (hg1 : goodItem (lc, tA, c1))
    (hg2 : goodItem (lc, tA, c2))
    (hb1 : '`' ∉ tP) (hb2 : '`' ∉ cP) (hb3 : '`' ∉ tA) (hb4 : '`' ∉ c1)
    (hb5 : '`' ∉ c2) :
    splitText (chunks [(lp, tP, cP), (lc, tA, c1), (lc, tA, c2)]) =
      [⟨cleanSectionHeader tP, pyStrip cP, lp, ⟨[], []⟩⟩,
       ⟨cleanSectionHeader tA, pyStrip c2, lc, ⟨[(hKey lp, tP)], []⟩⟩] := by
  have hle1 : ¬ (lc ≤ lp) := by omega
  have hne1 : ¬ (lp = lc) := by omega
  have hne2 : ¬ (lc = lp) := by omega
  rw [splitText_chunks _ (by simp)
    (by
      intro it hit
      simp only [List.mem_cons, List.not_mem_nil, or_false] at hit
      rcases hit with rfl | rfl | rfl
      · exact hgP
      · exact hg1
      · exact hg2)
    (by
      intro it hit
      simp only [List.mem_cons, List.not_mem_nil, or_false] at hit
      rcases hit with rfl | rfl | rfl
      · exact ⟨hb1, hb2⟩
      · exact ⟨hb3, hb4⟩
      · exact ⟨hb3, hb5⟩)]
  simp [buildAll, buildStep, initState, popStacks, addToGroup, Forest.insert,
    Forest.insertAtPath, Forest.modifyChildren, addSiblings, lookupGroup,
    createSections, presentParents_initial, presentParents_setParent_initial,
    hle1, hne1, hne2]

/-- C8 witness: `# P` with two `## X` children; the later content wins. -/
theorem c8_amended_duplicate_overwrites_witness :
    splitText (chunks [(1, "P".data, "p\n".data), (2, "X".data, "c1\n".data),
        (2, "X".data, "c2\n".data)]) =
      [⟨cleanSectionHeader "P".data, pyStrip "p\n".data, 1, ⟨[], []⟩⟩,
       ⟨cleanSectionHeader "X".data, pyStrip "c2\n".data, 2,
        ⟨[(hKey 1, "P".data)], []⟩⟩] :=
  c8_amended_duplicate_overwrites 1 2 "P".data "p\n".data "X".data
    "c1\n".data "c2\n".data (by decide) (by decide) (by decide) (by decide)
    (by decide) (by decide) (by decide) (by decide) (by decide)

/-- C10 counterexample: `"```c\n# y\n```\n# H\ncontent\n"` contains a
terminated fenced code block whose line `# y` has `#` as its first
non-whitespace character, and the replacement map shows the line was indeed
replaced by the placeholder `{{CODE_COMMENT_0}}`.  But the fence precedes the
first header, and text before the first header match is discarded entirely:
the only returned Section is `H` with text `content` — no Section's
`section_text` contains the placeholder, contradicting the claim that the
enclosing Section's text carries it. -/
theorem c10_counterexample :
    (processCodeBlocks "```c\n# y\n```\n# H\ncontent\n".data).2 =
        [(commentToken 0, "# y".data)] ∧
    splitText "```c\n# y\n```\n# H\ncontent\n".data =
        [⟨"H".data, "content".data, 1, ⟨[], []⟩⟩] := by
  refine ⟨by decide, by decide⟩

/-- C10 (amended): when the terminated fence lies inside a header's section
(after the header line, with a backtick-free surrounding), fenced content is
indeed not preserved verbatim: the single returned Section (its header
passing through the `clean_section_header` validator) carries as its
text the stripped `c1 + "```" + "\n".join(protected lines) + "```" + c2`
— the fence's language tag and the newline after the opening backticks are
dropped — each body line whose first non-whitespace character is `#` is
replaced (at its line index) by a placeholder `{{CODE_COMMENT_n}}`, at least
one such placeholder exists, and no hash character survives anywhere in the
returned section text, so the original `#`-line is absent from it.  (When
the fence precedes every header its content is dropped instead, as the
counterexample shows.) -/
theorem c10_amended_fence_content_replaced (kH : Nat) (tH c1 lang body c2 : Str)
    (hk : 0 < kH) (ht1 : tH ≠ []) (ht2 : '\n' ∉ tH) (ht3 : pyStrip tH = tH)
    (ht4 : '`' ∉ tH) (hc1a : '`' ∉ c1) (hc1b : '#' ∉ c1) (hlang : '\n' ∉ lang)
    (hba : '`' ∉ body)
    (hbb : ∀ l ∈ pySplitNl body, (pyLStrip l).head? = some '#' ∨ '#' ∉ l)
    (hbc : ∃ l ∈ pySplitNl body, (pyLStrip l).head? = some '#')
    (hc2a : '`' ∉ c2) (hc2b : '#' ∉ c2) (hc2c : c2.getLast? = some '\n') :
    splitText (headerLine kH tH ++ c1 ++ "```".data ++ lang ++ '\n' ::
        (body ++ "```".data ++ c2)) =
      [⟨cleanSectionHeader tH,
        pyStrip (c1 ++ "```".data ++
          joinNl (protectLines 0 (pySplitNl body)).1 ++ "```".data ++ c2),
        kH, ⟨[], []⟩⟩] ∧
    (∀ j l, (pySplitNl body).get? j = some l → (pyLStrip l).head? = some '#' →
      ∃ n, (protectLines 0 (pySplitNl body)).1.get? j = some (commentToken n)) ∧
    (∃ j n, (protectLines 0 (pySplitNl body)).1.get? j = some (commentToken n)) ∧
    '#' ∉ pyStrip (c1 ++ "```".data ++
      joinNl (protectLines 0 (pySplitNl body)).1 ++ "```".data ++ c2) := by
  have hChash : '#' ∉ c1 ++ "```".data ++
      joinNl (protectLines 0 (pySplitNl body)).1 ++ "```".data ++ c2 := by
    intro hx
    rcases List.mem_append.mp hx with hx1 | hx2
    · rcases List.mem_append.mp hx1 with hx3 | hx4
      · rcases List.mem_append.mp hx3 with hx5 | hx6
        · rcases List.mem_append.mp hx5 with hx7 | hx8
          · exact hc1b hx7
          · exact absurd hx8 (by decide)
        · rcases mem_joinNl _ _ hx6 with he | ⟨lx, hlx, hcx⟩
          · exact absurd he (by decide)
          · exact protectLines_no_hash (pySplitNl body) 0 hbb lx hlx hcx
      · exact absurd hx4 (by decide)
    · exact hc2b hx2
  have hClast : (c1 ++ "```".data ++
      joinNl (protectLines 0 (pySplitNl body)).1 ++ "```".data ++ c2).getLast? =
      some '\n' := by
    rw [List.getLast?_append, hc2c]
    rfl
  have hgood : ∀ it ∈ [(kH, tH, c1 ++ "```".data ++
      joinNl (protectLines 0 (pySplitNl body)).1 ++ "```".data ++ c2)],
      goodItem it := by
    intro it hit
    rw [List.mem_singleton] at hit
    subst hit
    exact ⟨hk, ht1, ht2, ht3, hChash, Or.inr hClast⟩
  have hpn : '`' ∉ headerLine kH tH ++ c1 := by
    intro hx
    rcases List.mem_append.mp hx with hx1 | hx2
    · rw [headerLine] at hx1
      rcases List.mem_append.mp hx1 with hxa | hxb
      · exact absurd (List.eq_of_mem_replicate hxa) (by decide)
      · rcases List.mem_cons.mp hxb with he | hxc
        · exact absurd he (by decide)
        · rcases List.mem_append.mp hxc with hxd | hxe
          · exact ht4 hxd
          · rcases List.mem_cons.mp hxe with he2 | hxf
            · exact absurd he2 (by decide)
            · exact absurd hxf (List.not_mem_nil _)
    · exact hc1a hx2
  have hfence := processCodeBlocks_fence (headerLine kH tH ++ c1) lang body c2
    hpn hlang hba hc2a
  have hdoc : headerLine kH tH ++ c1 ++ "```".data ++ lang ++ '\n' ::
      (body ++ "```".data ++ c2) =
      (headerLine kH tH ++ c1) ++ "```".data ++ lang ++ '\n' ::
      (body ++ "```".data ++ c2) := by
    simp [List.append_assoc]
  have hproc : (processCodeBlocks (headerLine kH tH ++ c1 ++ "```".data ++
      lang ++ '\n' :: (body ++ "```".data ++ c2))).1 =
      chunks [(kH, tH, c1 ++ "```".data ++
        joinNl (protectLines 0 (pySplitNl body)).1 ++ "```".data ++ c2)] := by
    rw [hdoc, congrArg Prod.fst hfence]
    simp [chunks, headerLine, List.append_assoc]
  have hhash : '#' ∈ headerLine kH tH ++ c1 ++ "```".data ++ lang ++ '\n' ::
      (body ++ "```".data ++ c2) := by
    rw [hdoc]
    refine List.mem_append.mpr (Or.inl (List.mem_append.mpr (Or.inl
      (List.mem_append.mpr (Or.inl (List.mem_append.mpr (Or.inl ?_)))))))
    rw [headerLine]
    exact List.mem_append.mpr (Or.inl (List.mem_replicate.mpr ⟨by omega, rfl⟩))
  have hstrip : pyStrip (headerLine kH tH ++ c1 ++ "```".data ++ lang ++ '\n' ::
      (body ++ "```".data ++ c2)) ≠ [] :=
    pyStrip_ne_nil _ '#' (by decide) hhash
  have hsplit := splitText_of_processed _ _ (by simp) hgood hstrip hproc
  refine ⟨?_, ?_, ?_, ?_⟩
  · rw [hsplit]
    simp [buildAll, buildStep, initState, popStacks, addToGroup, Forest.insert,
      Forest.insertAtPath, Forest.modifyChildren, addSiblings, lookupGroup,
      createSections, presentParents_initial]
  · intro j l hget hhash'
    exact protectLines_get_hash (pySplitNl body) 0 j l hget hhash'
  · obtain ⟨l, hl, hlh⟩ := hbc
    obtain ⟨j, hjlt, hjget⟩ := List.mem_iff_getElem.mp hl
    have hget : (pySplitNl body).get? j = some l := by
      rw [List.get?_eq_getElem?, List.getElem?_eq_getElem hjlt, hjget]
    obtain ⟨n, hn⟩ := protectLines_get_hash (pySplitNl body) 0 j l hget hlh
    exact ⟨j, n, hn⟩
  · intro hx
    unfold pyStrip at hx
    rw [List.mem_reverse] at hx
    have h2 := (List.dropWhile_sublist _).subset hx
    rw [List.mem_reverse] at h2
    exact hChash ((List.dropWhile_sublist _).subset h2)

/-- C10 witness: in `# H\nintro\n```py\n# secret\n```\ntail\n` the fence body
line `# secret` is replaced by `{{CODE_COMMENT_0}}`, and the single returned
Section `H` carries the rejoined text with the language tag and the newline
after the opening fence dropped and no hash anywhere. -/
theorem c10_amended_fence_content_replaced_witness :
    splitText (headerLine 1 "H".data ++ "intro\n".data ++ "```".data ++
        "py".data ++ '\n' :: ("# secret".data ++ "```".data ++ "\ntail\n".data)) =
      [⟨cleanSectionHeader "H".data,
        pyStrip ("intro\n".data ++ "```".data ++
          joinNl (protectLines 0 (pySplitNl "# secret".data)).1 ++ "```".data ++
          "\ntail\n".data),
        1, ⟨[], []⟩⟩] ∧
    (∀ j l, (pySplitNl "# secret".data).get? j = some l →
        (pyLStrip l).head? = some '#' →
      ∃ n, (protectLines 0 (pySplitNl "# secret".data)).1.get? j =
        some (commentToken n)) ∧
    (∃ j n, (protectLines 0 (pySplitNl "# secret".data)).1.get? j =
      some (commentToken n)) ∧
    '#' ∉ pyStrip ("intro\n".data ++ "```".data ++
      joinNl (protectLines 0 (pySplitNl "# secret".data)).1 ++ "```".data ++
      "\ntail\n".data) :=
  c10_amended_fence_content_replaced 1 "H".data "intro\n".data "py".data
    "# secret".data "\ntail\n".data (by decide) (by decide) (by decide)
    (by decide) (by decide) (by decide) (by decide) (by decide) (by decide)
    (by decide) (by decide) (by decide) (by decide) (by decide)

/-- C9: `from_file` fails with a `FileNotFoundError` when the path does not
exist and with an `IsADirectoryError` when the path is a directory; in both
cases the result is an error, not a section list. -/
theorem c9_from_file_errors (fs : Str → Option FsEntry) (path : Str) :
    (fs path = none → fromFile fs path = .error (.fileNotFound path)) ∧
    (fs path = some .directory → fromFile fs path = .error (.isADirectory path)) := by
  constructor <;> intro h <;> simp [fromFile, h]

/-- C9 witness: a filesystem with no entries reports `fileNotFound`, and one
whose entry is a directory reports `isADirectory`. -/
theorem c9_from_file_errors_witness :
    fromFile (fun _ => none) "missing.md".data =
        .error (.fileNotFound "missing.md".data) ∧
    fromFile (fun _ => some .directory) "somedir".data =
        .error (.isADirectory "somedir".data) :=
  ⟨(c9_from_file_errors (fun _ => none) "missing.md".data).1 rfl,
   (c9_from_file_errors (fun _ => some .directory) "somedir".data).2 rfl⟩

end RollToQuest
